import Mathlib

/-!
Verification of the nnnoiseless noise-suppression core against its specification.

The per-frame DSP pipeline of `src/lib.rs` and `src/denoise.rs` is shallowly embedded
below.  All `f32`/`f64` sample arithmetic is modelled exactly over `ℚ`; buffers are
`List ℚ`, indexed reads are `List.getD` (every read performed by the code is in bounds
for well-formed states, and the checked variants at the end model the panicking
accesses on the caller-supplied slices).  The collaborators that are not part of the
two source files (the `RealFft` plan from `fft.rs`, `compute_rnn` from `rnn.rs`, the
lazily-built window/DCT tables of `CommonState`, and the transcendental `f32`
functions `sqrt`/`log10`) are abstracted into an `Env` record, so every theorem about
the pipeline is proved for an arbitrary environment.  A separate real-valued model of
the FFT, written from the specification, is used for the FFT round-trip property.
-/

/-! ## Constants (from src/lib.rs) -/

def FRAME_SIZE_SHIFT : ℕ := 2

def FRAME_SIZE : ℕ := 120 <<< FRAME_SIZE_SHIFT

def WINDOW_SIZE : ℕ := 2 * FRAME_SIZE

def FREQ_SIZE : ℕ := FRAME_SIZE + 1

def PITCH_MIN_PERIOD : ℕ := 60

def PITCH_MAX_PERIOD : ℕ := 768

def PITCH_FRAME_SIZE : ℕ := 960

def PITCH_BUF_SIZE : ℕ := PITCH_MAX_PERIOD + PITCH_FRAME_SIZE

def NB_BANDS : ℕ := 22

def CEPS_MEM : ℕ := 8

def NB_DELTA_CEPS : ℕ := 6

def NB_FEATURES : ℕ := NB_BANDS + 3 * NB_DELTA_CEPS + 2

def EBAND_5MS : List ℕ :=
  [0, 1, 2, 3, 4, 5, 6, 7, 8, 10, 12, 14, 16, 20, 24, 28, 34, 40, 48, 60, 78, 100]

/-- Complex spectrum bins `num_complex::Complex<f32>`, modelled as pairs (re, im). -/
abbrev Cq := ℚ × ℚ

/-! ## inner_prod (src/lib.rs lines 10-29)

The source accumulates four partial sums over chunks of four, then adds the
remainder; `chunk4_sums` is that chunked accumulation. -/

def chunk4_sums : List ℚ → List ℚ → ℚ × ℚ × ℚ × ℚ → ℚ × ℚ × ℚ × ℚ
  | x0 :: x1 :: x2 :: x3 :: xs, y0 :: y1 :: y2 :: y3 :: ys, (s0, s1, s2, s3) =>
      chunk4_sums xs ys (s0 + x0 * y0, s1 + x1 * y1, s2 + x2 * y2, s3 + x3 * y3)
  | _, _, s => s

def inner_prod (xs ys : List ℚ) (n : ℕ) : ℚ :=
  let n4 := n - n % 4
  let s := chunk4_sums (xs.take n4) (ys.take n4) (0, 0, 0, 0)
  let sum := s.1 + s.2.1 + s.2.2.1 + s.2.2.2
  sum + ((List.range (n - n4)).map fun j => xs.getD (n4 + j) 0 * ys.getD (n4 + j) 0).sum

/-! ## pitch_xcorr (src/lib.rs lines 81-148)

Embedded in the un-optimized form that the source itself documents as equivalent
(`xcorr[i] = xs.iter().zip(&ys[i..]).map(|(&x, &y)| x * y).sum()`); the unrolling in
the source is a pure reassociation of these sums. -/

def pitch_xcorr (xs ys : List ℚ) (len : ℕ) : List ℚ :=
  (List.range len).map fun i => (List.zipWith (· * ·) xs (ys.drop i)).sum

/-! ## find_best_pitch (src/lib.rs lines 157-190) -/

structure FbpState where
  best_num : ℚ
  best_den : ℚ
  best_pitch : ℕ
  second_best_num : ℚ
  second_best_den : ℚ
  second_best_pitch : ℕ
  y_sq_norm : ℚ

def find_best_pitch_step (xcorr ys : List ℚ) (len : ℕ) (st : FbpState) (i : ℕ) :
    FbpState :=
  let corr := xcorr.getD i 0
  let st1 :=
    if 0 < corr then
      let num := corr * corr
      if st.second_best_num * st.y_sq_norm < num * st.second_best_den then
        if st.best_num * st.y_sq_norm < num * st.best_den then
          { st with
            second_best_num := st.best_num, second_best_den := st.best_den,
            second_best_pitch := st.best_pitch,
            best_num := num, best_den := st.y_sq_norm, best_pitch := i }
        else
          { st with
            second_best_num := num, second_best_den := st.y_sq_norm,
            second_best_pitch := i }
      else st
    else st
  let y2 := st1.y_sq_norm + ys.getD (i + len) 0 * ys.getD (i + len) 0
              - ys.getD i 0 * ys.getD i 0
  { st1 with y_sq_norm := max y2 1 }

def find_best_pitch (xcorr ys : List ℚ) (len : ℕ) : ℕ × ℕ :=
  let init : FbpState :=
    ⟨-1, 0, 0, -1, 0, 1, 1 + ((ys.take len).map fun y => y * y).sum⟩
  let fin := (List.range xcorr.length).foldl (find_best_pitch_step xcorr ys len) init
  (fin.best_pitch, fin.second_best_pitch)

/-! ## pitch_search (src/lib.rs lines 193-249)

The caller-provided scratch slices `x_lp4`/`y_lp4` are built internally with the
lengths the specification gives them (len/4 and (len+max_pitch)/4). -/

def pitch_search (x_lp y : List ℚ) (len max_pitch : ℕ) : ℕ :=
  let x_lp4 := (List.range (len / 4)).map fun j => x_lp.getD (2 * j) 0
  let y_lp4 := (List.range ((len + max_pitch) / 4)).map fun j => y.getD (2 * j) 0
  let xcorr := pitch_xcorr x_lp4 y_lp4 (max_pitch / 4)
  let bp := find_best_pitch xcorr y_lp4 (len / 4)
  let xcorr2 := (List.range (max_pitch / 2)).map fun (i : ℕ) =>
    if 2 < ((i : ℤ) - 2 * (bp.1 : ℤ)).natAbs ∧ 2 < ((i : ℤ) - 2 * (bp.2 : ℤ)).natAbs then 0
    else max (inner_prod x_lp (y.drop i) (len / 2)) (-1)
  let bp2 := (find_best_pitch xcorr2 y (len / 2)).1
  let offset : ℤ :=
    if 0 < bp2 ∧ bp2 < max_pitch / 2 - 1 then
      let a := xcorr2.getD (bp2 - 1) 0
      let b := xcorr2.getD bp2 0
      let c := xcorr2.getD (bp2 + 1) 0
      if 7/10 * (b - a) < c - a then 1
      else if 7/10 * (b - c) < a - c then -1
      else 0
    else 0
  (2 * (bp2 : ℤ) - offset).toNat

/-! ## fir5 (src/lib.rs lines 251-273) -/

def fir5 (num0 num1 num2 num3 num4 : ℚ) : ℚ → ℚ → ℚ → ℚ → ℚ → List ℚ → List ℚ
  | _, _, _, _, _, [] => []
  | m0, m1, m2, m3, m4, x :: xs =>
      let out := x + num0 * m0 + num1 * m1 + num2 * m2 + num3 * m3 + num4 * m4
      out :: fir5 num0 num1 num2 num3 num4 x m0 m1 m2 m3 xs

def fir5_in_place (xs : List ℚ) (num : List ℚ) : List ℚ :=
  fir5 (num.getD 0 0) (num.getD 1 0) (num.getD 2 0) (num.getD 3 0) (num.getD 4 0)
    0 0 0 0 0 xs

/-! ## celt_autocorr (src/lib.rs lines 277-290) -/

def celt_autocorr (x : List ℚ) (acLen : ℕ) : List ℚ :=
  let n := x.length
  let lag := acLen - 1
  let fast_n := n - lag
  let ac := pitch_xcorr (x.take fast_n) x acLen
  (List.range acLen).map fun k =>
    ac.getD k 0 +
      ((List.range (n - (k + fast_n))).map fun t =>
        x.getD (k + fast_n + t) 0 * x.getD (k + fast_n + t - k) 0).sum

/-! ## lpc via Levinson-Durbin (src/lib.rs lines 42-77)

The two early `return`s of the source are modelled by the `ac[0] == 0` guard and a
`done` flag that freezes the remaining iterations. -/

def lpc (p : ℕ) (ac : List ℚ) : List ℚ :=
  let ac0 := ac.getD 0 0
  if ac0 = 0 then List.replicate p 0
  else
    let step := fun (s : List ℚ × ℚ × Bool) (i : ℕ) =>
      if s.2.2 then s
      else
        let l := s.1
        let error := s.2.1
        let rr := ((List.range i).map fun j => l.getD j 0 * ac.getD (i - j) 0).sum
                    + ac.getD (i + 1) 0
        let r := -rr / error
        let l1 := l.set i r
        let l2 := (List.range ((i + 1) / 2)).foldl (fun acc j =>
          let tmp1 := acc.getD j 0
          let tmp2 := acc.getD (i - 1 - j) 0
          (acc.set j (tmp1 + r * tmp2)).set (i - 1 - j) (tmp2 + r * tmp1)) l1
        let error2 := error - r * r * error
        (l2, error2, if error2 < 1/1000 * ac0 then true else false)
    ((List.range p).foldl step (List.replicate p 0, ac0, false)).1

/-! ## pitch_downsample (src/lib.rs lines 292-325), split into its stages -/

def pitch_downsample_lp (x : List ℚ) : List ℚ :=
  (List.range (x.length / 2)).map fun i =>
    if i = 0 then (x.getD 1 0 / 2 + x.getD 0 0) / 2
    else ((x.getD (2 * i - 1) 0 + x.getD (2 * i + 1) 0) / 2 + x.getD (2 * i) 0) / 2

/-- Noise floor and lag windowing applied to the 5-tap autocorrelation. -/
def lag_window (ac : List ℚ) : List ℚ :=
  (List.range 5).map fun i =>
    if i = 0 then ac.getD 0 0 * (10001/10000)
    else ac.getD i 0 - ac.getD i 0 * (8/1000 * (i : ℚ)) * (8/1000 * (i : ℚ))

/-- Bandwidth expansion of the LPC coefficients followed by adding a zero at 0.8,
producing the 5-tap FIR numerator. -/
def lpc_to_fir (c : List ℚ) : List ℚ :=
  let cb := ((List.range 4).foldl (fun (acc : List ℚ × ℚ) i =>
    let tmp := acc.2 * (9/10)
    (acc.1.set i (acc.1.getD i 0 * tmp), tmp)) (c, 1)).1
  [cb.getD 0 0 + 8/10,
   cb.getD 1 0 + 8/10 * cb.getD 0 0,
   cb.getD 2 0 + 8/10 * cb.getD 1 0,
   cb.getD 3 0 + 8/10 * cb.getD 2 0,
   8/10 * cb.getD 3 0]

def pitch_downsample (x : List ℚ) : List ℚ :=
  let x_lp := pitch_downsample_lp x
  let ac := lag_window (celt_autocorr x_lp 5)
  fir5_in_place x_lp (lpc_to_fir (lpc 4 ac))

/-! ## Environment of collaborators outside src/ -/

/-- Modelled from the spec: the collaborators of the two source files that live in
modules not present under src/ (`fft.rs`: the `RealFft` forward/inverse plan of
length WINDOW_SIZE; `rnn.rs`: `compute_rnn` advancing an opaque hidden state and
producing 22 band gains and a VAD probability; the lazily-built `CommonState`
window and DCT tables of §4.1), together with the transcendental `f32` operations
`sqrt`, `log10` and the constant `sqrt(2/NB_BANDS)`, which have no exact rational
counterpart.  The pipeline below is defined over an arbitrary such environment. -/
structure Env where
  fft : List ℚ → ℕ → Cq
  ifft : List Cq → ℕ → ℚ
  window : ℕ → ℚ
  dct_table : ℕ → ℚ
  sqrt2_nb : ℚ
  sqrt : ℚ → ℚ
  log10 : ℚ → ℚ
  rnn : List ℚ → List ℚ → List ℚ × ℚ × List ℚ

/-! ## pitch_gain, remove_doubling (src/lib.rs lines 327-443) -/

def pitch_gain (env : Env) (xy xx yy : ℚ) : ℚ := xy / env.sqrt (1 + xx * yy)

def SECOND_CHECK : List ℕ := [0, 0, 3, 2, 3, 2, 5, 2, 3, 2, 3, 2, 5, 2, 3, 2]

/-- One step of the `yy_lookup` loop of `remove_doubling` (src/lib.rs lines
360-364): update the running (unclamped) `yy` and append its clamped value. -/
def rd_lookup_step (x : List ℚ) (max_period n : ℕ) (acc : List ℚ × ℚ) (i : ℕ) :
    List ℚ × ℚ :=
  let yy := acc.2 + x.getD (max_period - i) 0 * x.getD (max_period - i) 0
              - x.getD (max_period + n - i) 0 * x.getD (max_period + n - i) 0
  (acc.1 ++ [max yy 0], yy)

/-- Construction of the `yy_lookup` table of `remove_doubling` (src/lib.rs lines
356-364): `yy_lookup[0] = xx`, then the running (unclamped) `yy` is stepped and each
entry stores `yy.max(0.0)`.  `max_period` and `n` are the already-halved values used
by the loop; the caller-supplied `yy_lookup` scratch buffer is built here with
`max_period + 1` entries. -/
def remove_doubling_lookup (x : List ℚ) (max_period n : ℕ) : List ℚ :=
  let xx := inner_prod (x.drop max_period) (x.drop max_period) n
  (((List.range' 1 max_period).foldl (rd_lookup_step x max_period n) ([xx], xx))).1

/-- Energy of the length-`n` window of `x` starting at index `max_period - k`: the
value held by the running `yy` of `remove_doubling` after `k` loop iterations.
Used only to state and prove the characterisation of `remove_doubling_lookup`. -/
def rd_window (x : List ℚ) (max_period n k : ℕ) : ℚ :=
  ∑ j ∈ Finset.range n,
    x.getD (max_period - k + j) 0 * x.getD (max_period - k + j) 0

structure RdState where
  t : ℕ
  g : ℚ
  best_xy : ℚ
  best_yy : ℚ
  done : Bool

def remove_doubling_step (env : Env) (x : List ℚ)
    (max_period min_period n t0 prev_period : ℕ) (prev_gain xx g0 : ℚ)
    (yy_lookup : List ℚ) (s : RdState) (k : ℕ) : RdState :=
  if s.done then s
  else
    let t1 := (2 * t0 + k) / (2 * k)
    if t1 < min_period then { s with done := true }
    else
      let t1b :=
        if k = 2 then (if max_period < t1 + t0 then t0 else t0 + t1)
        else (2 * SECOND_CHECK.getD k 0 * t0 + k) / (2 * k)
      let xy1 := inner_prod (x.drop max_period) (x.drop (max_period - t1)) n
      let xy2 := inner_prod (x.drop max_period) (x.drop (max_period - t1b)) n
      let xy := (xy1 + xy2) / 2
      let yy := (yy_lookup.getD t1 0 + yy_lookup.getD t1b 0) / 2
      let g1 := pitch_gain env xy xx yy
      let cont :=
        if ((t1 : ℤ) - (prev_period : ℤ)).natAbs ≤ 1 then prev_gain
        else if ((t1 : ℤ) - (prev_period : ℤ)).natAbs ≤ 2 ∧ 5 * k * k < t0 then
          prev_gain / 2
        else 0
      let thresh :=
        if t1 < 3 * min_period then max (85/100 * g0 - cont) (4/10)
        else if t1 < 2 * min_period then max (9/10 * g0 - cont) (5/10)
        else max (7/10 * g0 - cont) (3/10)
      if thresh < g1 then { t := t1, g := g1, best_xy := xy, best_yy := yy, done := false }
      else s

def remove_doubling (env : Env) (x : List ℚ)
    (max_period0 min_period0 n0 t00 prev_period0 : ℕ) (prev_gain : ℚ) : ℕ × ℚ :=
  let init_min_period := min_period0
  let min_period := min_period0 / 2
  let max_period := max_period0 / 2
  let t0a := t00 / 2
  let prev_period := prev_period0 / 2
  let n := n0 / 2
  let t0 := min t0a (max_period - 1)
  let xx := inner_prod (x.drop max_period) (x.drop max_period) n
  let xy0 := inner_prod (x.drop max_period) (x.drop (max_period - t0)) n
  let yy_lookup := remove_doubling_lookup x max_period n
  let yy0 := yy_lookup.getD t0 0
  let g0 := pitch_gain env xy0 xx yy0
  let fin := (List.range' 2 14).foldl
    (remove_doubling_step env x max_period min_period n t0 prev_period prev_gain xx g0
      yy_lookup)
    ⟨t0, g0, xy0, yy0, false⟩
  let best_xy := max fin.best_xy 0
  let pg := if fin.best_yy ≤ best_xy then 1 else best_xy / (fin.best_yy + 1)
  let xc0 := inner_prod (x.drop max_period) (x.drop (max_period - (fin.t + 0 - 1))) n
  let xc1 := inner_prod (x.drop max_period) (x.drop (max_period - (fin.t + 1 - 1))) n
  let xc2 := inner_prod (x.drop max_period) (x.drop (max_period - (fin.t + 2 - 1))) n
  let offset : ℤ :=
    if 7/10 * (xc1 - xc0) < xc2 - xc0 then 1
    else if 7/10 * (xc1 - xc2) < xc0 - xc2 then -1
    else 0
  (max (2 * (fin.t : ℤ) + offset).toNat init_min_period, min pg fin.g)

/-! ## Band operators, DCT, windowing, transforms (src/lib.rs lines 465-592) -/

def compute_band_corr (x p : List Cq) : List ℚ :=
  let out := (List.range (NB_BANDS - 1)).foldl (fun (out : List ℚ) (i : ℕ) =>
    let band_size := (EBAND_5MS.getD (i + 1) 0 - EBAND_5MS.getD i 0) <<< FRAME_SIZE_SHIFT
    (List.range band_size).foldl (fun (out : List ℚ) (j : ℕ) =>
      let frac := (j : ℚ) / (band_size : ℚ)
      let idx := (EBAND_5MS.getD i 0 <<< FRAME_SIZE_SHIFT) + j
      let xi := x.getD idx (0, 0)
      let pv := p.getD idx (0, 0)
      let corr := xi.1 * pv.1 + xi.2 * pv.2
      let out1 := out.set i (out.getD i 0 + (1 - frac) * corr)
      out1.set (i + 1) (out1.getD (i + 1) 0 + frac * corr)) out)
    (List.replicate NB_BANDS (0 : ℚ))
  let out1 := out.set 0 (out.getD 0 0 * 2)
  out1.set (NB_BANDS - 1) (out1.getD (NB_BANDS - 1) 0 * 2)

def interp_band_gain (band_e : List ℚ) : List ℚ :=
  (List.range (NB_BANDS - 1)).foldl (fun (out : List ℚ) (i : ℕ) =>
    let band_size := (EBAND_5MS.getD (i + 1) 0 - EBAND_5MS.getD i 0) <<< FRAME_SIZE_SHIFT
    (List.range band_size).foldl (fun (out : List ℚ) (j : ℕ) =>
      let frac := (j : ℚ) / (band_size : ℚ)
      let idx := (EBAND_5MS.getD i 0 <<< FRAME_SIZE_SHIFT) + j
      out.set idx ((1 - frac) * band_e.getD i 0 + frac * band_e.getD (i + 1) 0)) out)
    (List.replicate FREQ_SIZE (0 : ℚ))

def dct (env : Env) (x : List ℚ) : List ℚ :=
  (List.range NB_BANDS).map fun i =>
    (((List.range NB_BANDS).map fun j =>
      x.getD j 0 * env.dct_table (j * NB_BANDS + i)).sum) * env.sqrt2_nb

def apply_window (env : Env) (xs : List ℚ) : List ℚ :=
  (List.range xs.length).map fun i => xs.getD i 0 * env.window i

def forward_transform (env : Env) (input : List ℚ) : List Cq :=
  (List.range FREQ_SIZE).map fun k =>
    let z := env.fft input k
    (z.1 * (1 / (WINDOW_SIZE : ℚ)), z.2 * (1 / (WINDOW_SIZE : ℚ)))

def inverse_transform (env : Env) (input : List Cq) : List ℚ :=
  (List.range WINDOW_SIZE).map fun n => env.ifft input n

/-! ## DenoiseState (src/denoise.rs lines 34-68) -/

structure DenoiseState where
  analysis_mem : List ℚ
  cepstral_mem : List (List ℚ)
  mem_id : ℕ
  synthesis_mem : List ℚ
  pitch_buf : List ℚ
  last_gain : ℚ
  last_period : ℕ
  mem_hp_x : ℚ × ℚ
  lastg : List ℚ
  rnn : List ℚ
deriving DecidableEq

/-- `DenoiseState::new()`; the opaque `RnnState::new()` hidden state (rnn.rs is not
under src/) is modelled from the spec as a zero-initialised vector, here `[]`. -/
def DenoiseState.new : DenoiseState where
  analysis_mem := List.replicate FRAME_SIZE 0
  cepstral_mem := List.replicate CEPS_MEM (List.replicate NB_BANDS 0)
  mem_id := 0
  synthesis_mem := List.replicate FRAME_SIZE 0
  pitch_buf := List.replicate PITCH_BUF_SIZE 0
  last_gain := 0
  last_period := 0
  mem_hp_x := (0, 0)
  lastg := List.replicate NB_BANDS 0
  rnn := []

/-! ## frame_analysis (src/denoise.rs lines 82-94) -/

def frame_analysis (env : Env) (st : DenoiseState) (input : List ℚ) :
    DenoiseState × List Cq × List ℚ :=
  let buf := (List.range FRAME_SIZE).map (fun i => st.analysis_mem.getD i 0)
          ++ (List.range FRAME_SIZE).map (fun i => input.getD i 0)
  let st1 := { st with analysis_mem := (List.range FRAME_SIZE).map fun i => input.getD i 0 }
  let x := forward_transform env (apply_window env buf)
  (st1, x, compute_band_corr x x)

/-! ## compute_frame_features (src/denoise.rs lines 96-228) -/

structure FeatOut where
  state : DenoiseState
  x : List Cq
  p : List Cq
  ex : List ℚ
  ep : List ℚ
  exps : List ℚ
  features : List ℚ
  silence : Bool
deriving DecidableEq

/-- Body of the `ly`/`log_max`/`follow`/`e` accumulation loop (src/denoise.rs lines
162-167). -/
def ly_step (ex : List ℚ) (env : Env) (s : List ℚ × ℚ × ℚ × ℚ) (i : ℕ) :
    List ℚ × ℚ × ℚ × ℚ :=
  let ly := s.1
  let log_max := s.2.1
  let follow := s.2.2.1
  let e := s.2.2.2
  let lyi := max (max (env.log10 (1/100 + ex.getD i 0)) (log_max - 7)) (follow - 3/2)
  (ly.set i lyi, max log_max lyi, max (follow - 3/2) lyi, e + ex.getD i 0)

/-- The shifted `pitch_buf` after appending the current (high-passed) input frame
(src/denoise.rs lines 113-118). -/
def cff_pb (st : DenoiseState) (input : List ℚ) : List ℚ :=
  (List.range (PITCH_BUF_SIZE - FRAME_SIZE)).map
      (fun i => st.pitch_buf.getD (i + FRAME_SIZE) 0)
    ++ (List.range FRAME_SIZE).map (fun i => input.getD i 0)

/-- The pitch stage of `compute_frame_features` (src/denoise.rs lines 120-137):
downsample the updated pitch buffer, run the coarse/fine search and the doubling
removal; returns `(pitch_idx, gain)`. -/
def cff_pitch (env : Env) (st : DenoiseState) (input : List ℚ) : ℕ × ℚ :=
  let pb := cff_pb st input
  let pitch_buf_ds := pitch_downsample pb
  let pitch_idx0 := pitch_search (pitch_buf_ds.drop (PITCH_MAX_PERIOD / 2)) pitch_buf_ds
      PITCH_FRAME_SIZE (PITCH_MAX_PERIOD - 3 * PITCH_MIN_PERIOD)
  remove_doubling env pitch_buf_ds PITCH_MAX_PERIOD PITCH_MIN_PERIOD
      PITCH_FRAME_SIZE (PITCH_MAX_PERIOD - pitch_idx0) st.last_period st.last_gain

/-- State after the pitch stage updated `pitch_buf`, `last_period` and `last_gain`
(src/denoise.rs lines 113-118 and 138-139). -/
def cff_state2 (env : Env) (st : DenoiseState) (input : List ℚ) : DenoiseState :=
  { st with pitch_buf := cff_pb st input,
            last_period := (cff_pitch env st input).1,
            last_gain := (cff_pitch env st input).2 }

/-- The pitch-delayed windowed spectrum `P` (src/denoise.rs lines 141-145). -/
def cff_p_spectrum (env : Env) (st : DenoiseState) (input : List ℚ) : List Cq :=
  let pb := cff_pb st input
  let pitch_idx := (cff_pitch env st input).1
  forward_transform env (apply_window env ((List.range WINDOW_SIZE).map fun i =>
    pb.getD (PITCH_BUF_SIZE - WINDOW_SIZE - pitch_idx + i) 0))

/-- Normalised pitch correlation per band (src/denoise.rs lines 146-150). -/
def cff_exps (env : Env) (x pspec : List Cq) (ex ep : List ℚ) : List ℚ :=
  (List.range NB_BANDS).map fun i =>
    (compute_band_corr x pspec).getD i 0
      / env.sqrt (1/1000 + ex.getD i 0 * ep.getD i 0)

/-- The feature-vector writes performed before the silence gate (src/denoise.rs
lines 151-158): DCT of the pitch correlations, their biases, and the pitch-period
feature. -/
def cff_features_pre (env : Env) (exps : List ℚ) (pitch_idx : ℕ) : List ℚ :=
  let tmp := dct env exps
  let f0 := (List.range NB_DELTA_CEPS).foldl
    (fun (f : List ℚ) i => f.set (NB_BANDS + 2 * NB_DELTA_CEPS + i) (tmp.getD i 0))
    (List.replicate NB_FEATURES (0 : ℚ))
  let f1 := f0.set (NB_BANDS + 2 * NB_DELTA_CEPS)
    (f0.getD (NB_BANDS + 2 * NB_DELTA_CEPS) 0 - 13/10)
  let f2 := f1.set (NB_BANDS + 2 * NB_DELTA_CEPS + 1)
    (f1.getD (NB_BANDS + 2 * NB_DELTA_CEPS + 1) 0 - 9/10)
  f2.set (NB_BANDS + 3 * NB_DELTA_CEPS) (1/100 * ((pitch_idx : ℚ) - 300))

/-- The non-silent tail of `compute_frame_features` (src/denoise.rs lines 176-227):
cepstrum, cepstral ring update, delta cepstra and spectral variability.  Takes the
pitch-updated state and the pre-gate feature vector, returns the final state and
feature vector. -/
def cff_nonsilent (env : Env) (st2 : DenoiseState) (f3 ly : List ℚ) :
    DenoiseState × List ℚ :=
  let d := dct env ly
  let f4 := (List.range NB_BANDS).foldl (fun (f : List ℚ) i => f.set i (d.getD i 0)) f3
  let f5 := f4.set 0 (f4.getD 0 0 - 12)
  let f6 := f5.set 1 (f5.getD 1 0 - 4)
  let ceps_0_idx := st2.mem_id
  let ceps_1_idx := if st2.mem_id < 1 then CEPS_MEM + st2.mem_id - 1 else st2.mem_id - 1
  let ceps_2_idx := if st2.mem_id < 2 then CEPS_MEM + st2.mem_id - 2 else st2.mem_id - 2
  let cm := st2.cepstral_mem.set ceps_0_idx
    ((List.range NB_BANDS).map fun i => f6.getD i 0)
  let st3 := { st2 with cepstral_mem := cm, mem_id := st2.mem_id + 1 }
  let ceps_0 := cm.getD ceps_0_idx []
  let ceps_1 := cm.getD ceps_1_idx []
  let ceps_2 := cm.getD ceps_2_idx []
  let f7 := (List.range NB_DELTA_CEPS).foldl (fun (f : List ℚ) i =>
    ((f.set i (ceps_0.getD i 0 + ceps_1.getD i 0 + ceps_2.getD i 0)).set
      (NB_BANDS + i) (ceps_0.getD i 0 - ceps_2.getD i 0)).set
      (NB_BANDS + NB_DELTA_CEPS + i)
      (ceps_0.getD i 0 - 2 * ceps_1.getD i 0 + ceps_2.getD i 0)) f6
  let st4 := if st3.mem_id = CEPS_MEM then { st3 with mem_id := 0 } else st3
  let spec_variability := ((List.range CEPS_MEM).map fun i =>
    (List.range CEPS_MEM).foldl (fun md j =>
      if j ≠ i then
        min md (((List.range NB_BANDS).map fun k =>
          let t := (st4.cepstral_mem.getD i []).getD k 0
                     - (st4.cepstral_mem.getD j []).getD k 0
          t * t).sum)
      else md) (1000000000000000 : ℚ)).sum
  let f8 := f7.set (NB_BANDS + 3 * NB_DELTA_CEPS + 1)
    (spec_variability / (CEPS_MEM : ℚ) - 21/10)
  (st4, f8)

def compute_frame_features (env : Env) (st : DenoiseState) (input : List ℚ) : FeatOut :=
  let fa := frame_analysis env st input
  let st1 := fa.1
  let x := fa.2.1
  let ex := fa.2.2
  let pspec := cff_p_spectrum env st1 input
  let ep := compute_band_corr pspec pspec
  let exps := cff_exps env x pspec ex ep
  let f3 := cff_features_pre env exps (cff_pitch env st1 input).1
  let lyr := (List.range NB_BANDS).foldl (ly_step ex env)
    (List.replicate NB_BANDS 0, -2, -2, 0)
  let e := lyr.2.2.2
  if e < 1/25 then
    -- src/denoise.rs lines 169-175: the whole feature vector is zeroed and the
    -- function returns 1 before the cepstral ring is touched.
    { state := cff_state2 env st1 input, x := x, p := pspec, ex := ex, ep := ep,
      exps := exps, features := List.replicate NB_FEATURES 0, silence := true }
  else
    let r := cff_nonsilent env (cff_state2 env st1 input) f3 lyr.1
    { state := r.1, x := x, p := pspec, ex := ex, ep := ep, exps := exps,
      features := r.2, silence := false }

/-! ## biquad (src/denoise.rs lines 240-248)

The output samples and the final filter memory of the sequential loop are given by
two structurally recursive functions. -/

def biquad_filt (b0 b1 a0 a1 : ℚ) : ℚ → ℚ → List ℚ → List ℚ
  | _, _, [] => []
  | m0, m1, x :: xs =>
      let y := x + m0
      y :: biquad_filt b0 b1 a0 a1 (m1 + (b0 * x - a0 * y)) (b1 * x - a1 * y) xs

def biquad_mem (b0 b1 a0 a1 : ℚ) : ℚ × ℚ → List ℚ → ℚ × ℚ
  | m, [] => m
  | (m0, m1), x :: xs =>
      let y := x + m0
      biquad_mem b0 b1 a0 a1 (m1 + (b0 * x - a0 * y), b1 * x - a1 * y) xs

/-! ## frame_synthesis (src/denoise.rs lines 230-238); returns (out, synthesis_mem). -/

def frame_synthesis (env : Env) (mem : List ℚ) (y : List Cq) : List ℚ × List ℚ :=
  let x := apply_window env (inverse_transform env y)
  ((List.range FRAME_SIZE).map fun i => x.getD i 0 + mem.getD i 0,
   (List.range FRAME_SIZE).map fun i => x.getD (FRAME_SIZE + i) 0)

/-! ## pitch_filter (src/denoise.rs lines 250-287) -/

def pitch_filter (env : Env) (x p : List Cq) (ex ep exps g : List ℚ) : List Cq :=
  let r := (List.range NB_BANDS).map fun i =>
    let ri :=
      if g.getD i 0 < exps.getD i 0 then 1
      else
        let exp_sq := exps.getD i 0 * exps.getD i 0
        let g_sq := g.getD i 0 * g.getD i 0
        exp_sq * (1 - g_sq) / (1/1000 + g_sq * (1 - exp_sq))
    env.sqrt (min 1 (max 0 ri)) * env.sqrt (ex.getD i 0 / (1/100000000 + ep.getD i 0))
  let rf := interp_band_gain r
  let x1 := (List.range FREQ_SIZE).map fun i =>
    let xi := x.getD i (0, 0)
    let pv := p.getD i (0, 0)
    (xi.1 + rf.getD i 0 * pv.1, xi.2 + rf.getD i 0 * pv.2)
  let new_e := compute_band_corr x1 x1
  let norm := (List.range NB_BANDS).map fun i =>
    env.sqrt (ex.getD i 0 / (1/100000000 + new_e.getD i 0))
  let normf := interp_band_gain norm
  (List.range FREQ_SIZE).map fun i =>
    let xi := x1.getD i (0, 0)
    (xi.1 * normf.getD i 0, xi.2 * normf.getD i 0)

/-! ## process_frame (src/denoise.rs lines 289-342) -/

def a_hp : List ℚ := [-199599/100000, 249/250]

def b_hp : List ℚ := [-2, 1]

/-- Output list of the biquad high-pass stage of `process_frame` (`x_time`). -/
def hp_out (st : DenoiseState) (input : List ℚ) : List ℚ :=
  biquad_filt (b_hp.getD 0 0) (b_hp.getD 1 0) (a_hp.getD 0 0) (a_hp.getD 1 0)
    st.mem_hp_x.1 st.mem_hp_x.2 input

/-- State after the biquad high-pass stage updated `mem_hp_x`. -/
def hp_state (st : DenoiseState) (input : List ℚ) : DenoiseState :=
  let m := biquad_mem (b_hp.getD 0 0) (b_hp.getD 1 0) (a_hp.getD 0 0) (a_hp.getD 1 0)
    st.mem_hp_x input
  { st with mem_hp_x := m }

/-- The feature-extraction stage of `process_frame`, applied (as in the source) to
the high-passed frame. -/
def feat_of (env : Env) (st : DenoiseState) (input : List ℚ) : FeatOut :=
  compute_frame_features env (hp_state st input) (hp_out st input)

structure ProcOut where
  state : DenoiseState
  output : List ℚ
  vad : ℚ
deriving DecidableEq

/-- The `silence != 0` path of `process_frame` (src/denoise.rs lines 320-341 with
the gain block skipped): the RNN is not invoked, `gf` keeps its initial all-ones
value and the spectrum from frame analysis reaches synthesis unchanged; `vad_prob`
keeps its initialisation 0.0. -/
def process_frame_pass (env : Env) (fo : FeatOut) : ProcOut :=
  let s := frame_synthesis env fo.state.synthesis_mem fo.x
  { state := { fo.state with synthesis_mem := s.2 }, output := s.1, vad := 0 }

/-- The `silence == 0` path of `process_frame` (src/denoise.rs lines 320-341): run
the RNN, pitch-filter the spectrum, floor the gains by `0.6 * lastg`, interpolate
and apply them, then synthesise. -/
def process_frame_gain (env : Env) (fo : FeatOut) : ProcOut :=
  let r := env.rnn fo.state.rnn fo.features
  let g := r.1
  let st1 := { fo.state with rnn := r.2.2 }
  let x1 := pitch_filter env fo.x fo.p fo.ex fo.ep fo.exps g
  let g2 := (List.range NB_BANDS).map fun i =>
    max (g.getD i 0) (3/5 * st1.lastg.getD i 0)
  let st2 := { st1 with lastg := g2 }
  let gf := interp_band_gain g2
  let x2 := (List.range FREQ_SIZE).map fun i =>
    let xi := x1.getD i (0, 0)
    (xi.1 * gf.getD i 0, xi.2 * gf.getD i 0)
  let s := frame_synthesis env st2.synthesis_mem x2
  { state := { st2 with synthesis_mem := s.2 }, output := s.1, vad := r.2.1 }

def process_frame (env : Env) (st : DenoiseState) (input : List ℚ) : ProcOut :=
  let fo := feat_of env st input
  cond fo.silence (process_frame_pass env fo) (process_frame_gain env fo)

/-! ## Checked variant of the caller-facing slice accesses (for the length-precondition
claim)

The only accesses of `process_frame` whose bounds depend on the caller-supplied
slices are: the biquad loop writing `x_time[i]` for `i` in `0..input.len()` (the
local `x_time` buffer has the fixed length FRAME_SIZE), and `frame_synthesis`
writing `out[i]` for `i` in `0..FRAME_SIZE`.  Every other index is into the
fixed-size internal buffers and is in bounds.  The checked variants return `none`
exactly when the corresponding Rust indexing would panic, and otherwise the list of
samples actually stored in the (possibly longer) destination buffer. -/

def biquad_checked (b0 b1 a0 a1 : ℚ) : ℚ → ℚ → List ℚ → List ℚ →
    Option (List ℚ × ℚ × ℚ)
  | m0, m1, ybuf, [] => some (ybuf, m0, m1)
  | _, _, [], _ :: _ => none
  | m0, m1, _ :: ys, x :: xs =>
      let y := x + m0
      match biquad_checked b0 b1 a0 a1 (m1 + (b0 * x - a0 * y)) (b1 * x - a1 * y) ys xs with
      | none => none
      | some (rest, mm) => some (y :: rest, mm)

/-- Sequential bounds-checked writes of `vals` into the prefix of `buf`. -/
def write_into : List ℚ → List ℚ → Option (List ℚ)
  | buf, [] => some buf
  | [], _ :: _ => none
  | _ :: bs, v :: vs => (write_into bs vs).map (v :: ·)

def frame_synthesis_checked (env : Env) (mem out : List ℚ) (y : List Cq) :
    Option (List ℚ × List ℚ) :=
  let x := apply_window env (inverse_transform env y)
  match write_into out ((List.range FRAME_SIZE).map fun i => x.getD i 0 + mem.getD i 0) with
  | none => none
  | some out2 => some (out2, (List.range FRAME_SIZE).map fun i => x.getD (FRAME_SIZE + i) 0)

def process_frame_checked (env : Env) (st : DenoiseState) (out input : List ℚ) :
    Option (DenoiseState × List ℚ × ℚ) :=
  match biquad_checked (b_hp.getD 0 0) (b_hp.getD 1 0) (a_hp.getD 0 0) (a_hp.getD 1 0)
      st.mem_hp_x.1 st.mem_hp_x.2 (List.replicate FRAME_SIZE 0) input with
  | none => none
  | some (x_time, m0, m1) =>
    let st0 := { st with mem_hp_x := (m0, m1) }
    let fo := compute_frame_features env st0 x_time
    cond fo.silence
      (match frame_synthesis_checked env fo.state.synthesis_mem out fo.x with
       | none => none
       | some s => some ({ fo.state with synthesis_mem := s.2 }, s.1, 0))
      (let r := env.rnn fo.state.rnn fo.features
       let g := r.1
       let st1 := { fo.state with rnn := r.2.2 }
       let x1 := pitch_filter env fo.x fo.p fo.ex fo.ep fo.exps g
       let g2 := (List.range NB_BANDS).map fun i =>
         max (g.getD i 0) (3/5 * st1.lastg.getD i 0)
       let st2 := { st1 with lastg := g2 }
       let gf := interp_band_gain g2
       let x2 := (List.range FREQ_SIZE).map fun i =>
         let xi := x1.getD i (0, 0)
         (xi.1 * gf.getD i 0, xi.2 * gf.getD i 0)
       match frame_synthesis_checked env st2.synthesis_mem out x2 with
       | none => none
       | some s => some ({ st2 with synthesis_mem := s.2 }, s.1, r.2.1))

/-! ## Real-FFT model (for the round-trip property)

Modelled from the spec: `fft.rs` (the `RealFft` plan wrapped by `forward_transform`
and `inverse_transform`) is not under src/.  Per §4.1 of the specification, the
forward transform returns the 481 non-redundant bins of the length-960 real DFT with
the 1/960 normalisation applied to every bin, and the inverse consumes 481 bins,
implicitly completing the spectrum by Hermitian symmetry, and returns 960 real
samples with no further scaling. -/

instance : NeZero (960 : ℕ) := ⟨by norm_num⟩

/-- Modelled from the spec, stated over an arbitrary half-size `M`: Hermitian
completion of the `M + 1` stored bins to the full length-`2M` spectrum of a real
signal. -/
noncomputable def herm_ext_gen (M : ℕ) [NeZero (2 * M)] (X : Fin (M + 1) → ℂ) :
    ZMod (2 * M) → ℂ := fun j =>
  if h : j.val ≤ M then X ⟨j.val, by omega⟩
  else (starRingEnd ℂ) (X ⟨2 * M - j.val, by have := j.val_lt; omega⟩)

/-- Modelled from the spec, generic half-size version of the forward real FFT
(`M + 1` non-redundant bins of the `2M`-point DFT, all scaled by `1/(2M)`). -/
noncomputable def forward_transform_gen (M : ℕ) [NeZero (2 * M)]
    (b : Fin (2 * M) → ℝ) : Fin (M + 1) → ℂ := fun k =>
  ((2 * M : ℕ) : ℂ)⁻¹ * ZMod.dft (fun j : ZMod (2 * M) => ((b ⟨j.val, j.val_lt⟩ : ℝ) : ℂ))
    ((k.val : ZMod (2 * M)))

/-- Modelled from the spec, generic half-size version of the inverse real FFT (no
scaling; real part of the full inverse DFT of the Hermitian completion). -/
noncomputable def inverse_transform_gen (M : ℕ) [NeZero (2 * M)]
    (X : Fin (M + 1) → ℂ) : Fin (2 * M) → ℝ := fun n =>
  (∑ j : ZMod (2 * M), herm_ext_gen M X j * ZMod.stdAddChar (j * (n.val : ZMod (2 * M)))).re

instance : NeZero (2 * 480 : ℕ) := ⟨by norm_num⟩

noncomputable def herm_ext (X : Fin 481 → ℂ) : ZMod 960 → ℂ := herm_ext_gen 480 X

noncomputable def forward_transform_model (b : Fin 960 → ℝ) : Fin 481 → ℂ :=
  forward_transform_gen 480 b

noncomputable def inverse_transform_model (X : Fin 481 → ℂ) : Fin 960 → ℝ :=
  inverse_transform_gen 480 X

/-! ## Definitions used to state the claims -/

/-- Numerator of the score maximised by `find_best_pitch`. -/
def fbp_num (xcorr : List ℚ) (i : ℕ) : ℚ := xcorr.getD i 0 * xcorr.getD i 0

/-- Denominator actually used by `find_best_pitch`: `1 +` the windowed energy of
`ys` (the incremental update of `y_sq_norm`, whose clamp to 1 never fires in exact
arithmetic). -/
def fbp_den (ys : List ℚ) (len i : ℕ) : ℚ :=
  1 + ∑ j ∈ Finset.range len, ys.getD (i + j) 0 * ys.getD (i + j) 0

/-- Score actually maximised by `find_best_pitch`. -/
def fbp_score (xcorr ys : List ℚ) (len i : ℕ) : ℚ :=
  fbp_num xcorr i / fbp_den ys len i

/-- The score as worded by the claim (`xcorr[i]^2 / max(1, Σ ys[i..i+len]^2)`); kept
separate from `fbp_score` so the two can be compared. -/
def fbp_score_claimed (xcorr ys : List ℚ) (len i : ℕ) : ℚ :=
  fbp_num xcorr i / max 1 (∑ j ∈ Finset.range len, ys.getD (i + j) 0 * ys.getD (i + j) 0)

/-- Indices of `xcorr` that `find_best_pitch` considers (strictly positive entries). -/
def fbp_pos (xcorr : List ℚ) : Finset ℕ :=
  (Finset.range xcorr.length).filter fun i => 0 < xcorr.getD i 0

/-- Positive-correlation indices among the first `i` (the prefix of `fbp_pos`
processed after `i` loop iterations of `find_best_pitch`). -/
def fbp_pref (xcorr : List ℚ) (i : ℕ) : Finset ℕ :=
  (Finset.range i).filter fun j => 0 < xcorr.getD j 0

/-- Loop invariant of `find_best_pitch`: after `i` iterations the state is the
initial one (no positive index yet), holds one positive index in the best slot, or
holds the top-two indices by `fbp_score` in its best and second-best slots; the
running `y_sq_norm` always equals `fbp_den` at the next index. -/
def fbp_inv (xcorr ys : List ℚ) (len i : ℕ) (st : FbpState) : Prop :=
  (fbp_pref xcorr i = ∅ ∧
    st = ⟨-1, 0, 0, -1, 0, 1, fbp_den ys len i⟩) ∨
  (∃ b, fbp_pref xcorr i = {b} ∧
    st = ⟨fbp_num xcorr b, fbp_den ys len b, b, -1, 0, 0, fbp_den ys len i⟩) ∨
  (∃ b s, b ∈ fbp_pref xcorr i ∧ s ∈ fbp_pref xcorr i ∧ b ≠ s ∧
    (∀ j ∈ fbp_pref xcorr i, j ≠ b →
      fbp_score xcorr ys len j < fbp_score xcorr ys len b) ∧
    (∀ j ∈ fbp_pref xcorr i, j ≠ b → j ≠ s →
      fbp_score xcorr ys len j < fbp_score xcorr ys len s) ∧
    st = ⟨fbp_num xcorr b, fbp_den ys len b, b,
          fbp_num xcorr s, fbp_den ys len s, s, fbp_den ys len i⟩)

/-- The band gains predicted by the RNN inside `process_frame` (the `g` written by
`compute_rnn` before the `0.6 * lastg` floor is applied). -/
def rnn_gains (env : Env) (st : DenoiseState) (input : List ℚ) : List ℚ :=
  (env.rnn (feat_of env st input).state.rnn (feat_of env st input).features).1

/-- Real spectrum made of per-bin gains (zero imaginary parts), as fed to
`compute_band_corr` when correlating gain vectors. -/
def to_spec (l : List ℚ) : List Cq := l.map fun a => (a, 0)

/-- Per-band weights produced by `compute_band_corr (interp c) (interp c)` on the
all-ones band vector: half-sums of adjacent band sizes, with the edge doubling. -/
def band_weights : List ℚ :=
  [5, 4, 4, 4, 4, 4, 4, 4, 6, 8, 8, 8, 12, 16, 16, 20, 24, 28, 40, 60, 80, 87]

/-- Band-energy total `e` of the analysed frame, as accumulated by the feature
extractor over the 22 bands of `Ex`; the silence gate compares this against 0.04. -/
def frame_energy (env : Env) (st : DenoiseState) (input : List ℚ) : ℚ :=
  ∑ i ∈ Finset.range NB_BANDS,
    ((frame_analysis env (hp_state st input) (hp_out st input)).2.2).getD i 0

/-- The spectrum `X` produced by frame analysis inside `process_frame` (after the
biquad stage), before any gain is applied. -/
def analysis_spectrum (env : Env) (st : DenoiseState) (input : List ℚ) : List Cq :=
  (frame_analysis env (hp_state st input) (hp_out st input)).2.1

/-- A concrete environment (used only to instantiate theorems at specific inputs). -/
def env0 : Env where
  fft := fun _ _ => (0, 0)
  ifft := fun _ _ => 0
  window := fun _ => 0
  dct_table := fun _ => 0
  sqrt2_nb := 0
  sqrt := fun _ => 0
  log10 := fun _ => 0
  rnn := fun s _ => ([], 0, s)

/-- The all-zero denoiser state with a given `last_period` (the fixed point reached
when feeding zero frames). -/
def zstate (p : ℕ) : DenoiseState where
  analysis_mem := List.replicate FRAME_SIZE 0
  cepstral_mem := List.replicate CEPS_MEM (List.replicate NB_BANDS 0)
  mem_id := 0
  synthesis_mem := List.replicate FRAME_SIZE 0
  pitch_buf := List.replicate PITCH_BUF_SIZE 0
  last_gain := 0
  last_period := p
  mem_hp_x := (0, 0)
  lastg := List.replicate NB_BANDS 0
  rnn := []

/-- Iterated processing of all-zero frames from a fresh state; entry `k + 1` is the
result of the `(k + 1)`-st call to `process_frame`. -/
def zrun (env : Env) : ℕ → ProcOut
  | 0 => ⟨DenoiseState.new, List.replicate FRAME_SIZE 0, 0⟩
  | k + 1 => process_frame env (zrun env k).state (List.replicate FRAME_SIZE 0)

/-- Concrete input frame with a unit impulse, used to exhibit that the biquad output
appended to `pitch_buf` differs from the raw input. -/
def input_c1 : List ℚ := 1 :: List.replicate 479 0

/-! ## General list lemmas -/

theorem getD_replicate {α : Type} (n i : ℕ) (a : α) :
    (List.replicate n a).getD i a = a := by
  rw [List.getD_eq_getElem?_getD, List.getElem?_replicate]
  split <;> rfl

theorem getD_range_map_lt {α : Type} (f : ℕ → α) (n i : ℕ) (d : α) (h : i < n) :
    ((List.range n).map f).getD i d = f i := by
  rw [List.getD_eq_getElem?_getD, List.getElem?_map, List.getElem?_range h]
  rfl

theorem getD_range_map_ge {α : Type} (f : ℕ → α) (n i : ℕ) (d : α) (h : n ≤ i) :
    ((List.range n).map f).getD i d = d := by
  rw [List.getD_eq_getElem?_getD, List.getElem?_map]
  rw [List.getElem?_eq_none (by simp [h])]
  rfl

theorem range_map_getD_eq {α : Type} (l : List α) (d : α) :
    (List.range l.length).map (fun i => l.getD i d) = l := by
  apply List.ext_getElem
  · simp
  · intro i h1 h2
    simp only [List.getElem_map, List.getElem_range]
    rw [List.getD_eq_getElem?_getD, List.getElem?_eq_getElem h2]
    rfl

theorem range_map_const {α : Type} (n : ℕ) (a : α) :
    ((List.range n).map fun _ => a) = List.replicate n a := by
  simp

theorem sum_range_map (f : ℕ → ℚ) (n : ℕ) :
    ((List.range n).map f).sum = ∑ i ∈ Finset.range n, f i := by
  induction n with
  | zero => simp
  | succ n ih => rw [List.range_succ, List.map_append, List.sum_append,
      Finset.sum_range_succ, ih]; simp

theorem getD_zero_of_forall_zero {xs : List ℚ} (h : ∀ x ∈ xs, x = 0) (j : ℕ) :
    xs.getD j 0 = 0 := by
  rw [List.getD_eq_getElem?_getD]
  cases hx : xs[j]? with
  | none => rfl
  | some a => exact h a (List.getElem?_mem hx)

/-! ## inner_prod: chunked accumulation equals the plain sum -/

theorem chunk4_sums_spec (xs ys : List ℚ) (s : ℚ × ℚ × ℚ × ℚ)
    (hlen : xs.length = ys.length) (hmod : xs.length % 4 = 0) :
    (chunk4_sums xs ys s).1 + (chunk4_sums xs ys s).2.1
      + (chunk4_sums xs ys s).2.2.1 + (chunk4_sums xs ys s).2.2.2
    = s.1 + s.2.1 + s.2.2.1 + s.2.2.2 + (List.zipWith (· * ·) xs ys).sum := by
  match xs, ys, s with
  | x0 :: x1 :: x2 :: x3 :: xs, y0 :: y1 :: y2 :: y3 :: ys, (s0, s1, s2, s3) =>
    rw [show chunk4_sums (x0::x1::x2::x3::xs) (y0::y1::y2::y3::ys) (s0,s1,s2,s3)
        = chunk4_sums xs ys (s0 + x0*y0, s1 + x1*y1, s2 + x2*y2, s3 + x3*y3) from rfl]
    rw [chunk4_sums_spec xs ys _ (by simpa using hlen)
      (by have := hmod; simp at this; omega)]
    simp only [List.zipWith_cons_cons, List.sum_cons]
    ring
  | [], ys, s =>
    have : ys = [] := by
      cases ys with
      | nil => rfl
      | cons y ys => simp at hlen
    subst this
    simp [chunk4_sums]
  | [x0], y :: ys, s => simp at hmod
  | [x0, x1], y :: ys, s => simp at hmod
  | [x0, x1, x2], y :: ys, s => simp at hmod
  | x0 :: x1 :: x2 :: x3 :: xs, [], s => simp at hlen
  | x0 :: x1 :: x2 :: x3 :: xs, [y0], s => simp at hlen
  | x0 :: x1 :: x2 :: x3 :: xs, [y0, y1], s => simp at hlen
  | x0 :: x1 :: x2 :: x3 :: xs, [y0, y1, y2], s => simp at hlen
termination_by xs.length

theorem sum_range_split (g : ℕ → ℚ) (a b : ℕ) :
    ∑ j ∈ Finset.range (a + b), g j
      = (∑ j ∈ Finset.range a, g j) + ∑ j ∈ Finset.range b, g (a + j) := by
  induction b with
  | zero => simp
  | succ b ih => rw [show a + (b + 1) = (a + b) + 1 from rfl, Finset.sum_range_succ,
      Finset.sum_range_succ, ih]; ring

theorem zipWith_take_sum (xs ys : List ℚ) (n : ℕ) (h1 : n ≤ xs.length)
    (h2 : n ≤ ys.length) :
    (List.zipWith (· * ·) (xs.take n) (ys.take n)).sum
      = ∑ j ∈ Finset.range n, xs.getD j 0 * ys.getD j 0 := by
  induction n generalizing xs ys with
  | zero => simp
  | succ n ih =>
    cases xs with
    | nil => simp at h1
    | cons x xs =>
      cases ys with
      | nil => simp at h2
      | cons y ys =>
        rw [List.take_succ_cons, List.take_succ_cons, List.zipWith_cons_cons,
          List.sum_cons, ih xs ys (by simpa using h1) (by simpa using h2),
          Finset.sum_range_succ']
        simp only [List.getD_cons_succ, List.getD_cons_zero]
        ring

theorem inner_prod_eq_sum (xs ys : List ℚ) (n : ℕ) (h1 : n ≤ xs.length)
    (h2 : n ≤ ys.length) :
    inner_prod xs ys n = ∑ j ∈ Finset.range n, xs.getD j 0 * ys.getD j 0 := by
  simp only [inner_prod]
  have hx : (xs.take (n - n % 4)).length = n - n % 4 := by
    rw [List.length_take]; omega
  have hy : (ys.take (n - n % 4)).length = n - n % 4 := by
    rw [List.length_take]; omega
  rw [chunk4_sums_spec _ _ _ (by rw [hx, hy]) (by rw [hx]; omega)]
  rw [zipWith_take_sum xs ys (n - n % 4) (by omega) (by omega), sum_range_map]
  have hsplit := sum_range_split (fun j => xs.getD j 0 * ys.getD j 0) (n - n % 4)
    (n - (n - n % 4))
  rw [show (n - n % 4) + (n - (n - n % 4)) = n from by omega] at hsplit
  rw [hsplit]
  ring

theorem chunk4_sums_zero (xs ys : List ℚ) (s : ℚ × ℚ × ℚ × ℚ)
    (h : ∀ x ∈ xs, x = 0) : chunk4_sums xs ys s = s := by
  match xs, ys, s with
  | x0 :: x1 :: x2 :: x3 :: xs, y0 :: y1 :: y2 :: y3 :: ys, (s0, s1, s2, s3) =>
    rw [show chunk4_sums (x0::x1::x2::x3::xs) (y0::y1::y2::y3::ys) (s0,s1,s2,s3)
        = chunk4_sums xs ys (s0 + x0*y0, s1 + x1*y1, s2 + x2*y2, s3 + x3*y3) from rfl]
    rw [chunk4_sums_zero xs ys _ (fun x hx => h x (by simp [hx]))]
    have e0 : x0 = 0 := h x0 (by simp)
    have e1 : x1 = 0 := h x1 (by simp)
    have e2 : x2 = 0 := h x2 (by simp)
    have e3 : x3 = 0 := h x3 (by simp)
    simp [e0, e1, e2, e3]
  | [], ys, s => simp [chunk4_sums]
  | [x0], ys, s => simp [chunk4_sums]
  | [x0, x1], ys, s => simp [chunk4_sums]
  | [x0, x1, x2], ys, s => simp [chunk4_sums]
  | x0 :: x1 :: x2 :: x3 :: xs, [], s => simp [chunk4_sums]
  | x0 :: x1 :: x2 :: x3 :: xs, [y0], s => simp [chunk4_sums]
  | x0 :: x1 :: x2 :: x3 :: xs, [y0, y1], s => simp [chunk4_sums]
  | x0 :: x1 :: x2 :: x3 :: xs, [y0, y1, y2], s => simp [chunk4_sums]
termination_by xs.length

theorem inner_prod_zero_left (xs ys : List ℚ) (n : ℕ) (h : ∀ x ∈ xs, x = 0) :
    inner_prod xs ys n = 0 := by
  simp only [inner_prod]
  rw [chunk4_sums_zero _ _ _ (fun x hx => h x (List.mem_of_mem_take hx))]
  have : ∀ j ∈ List.range (n - (n - n % 4)),
      xs.getD ((n - n % 4) + j) 0 * ys.getD ((n - n % 4) + j) 0 = 0 := by
    intro j _
    rw [getD_zero_of_forall_zero h, zero_mul]
  rw [List.map_congr_left this, range_map_const]
  simp

theorem zipWith_mul_sum_zero_left (xs ys : List ℚ) (h : ∀ x ∈ xs, x = 0) :
    (List.zipWith (· * ·) xs ys).sum = 0 := by
  induction xs generalizing ys with
  | nil => simp
  | cons x xs ih =>
    cases ys with
    | nil => simp
    | cons y ys =>
      rw [List.zipWith_cons_cons, List.sum_cons, h x (by simp),
        ih ys (fun a ha => h a (by simp [ha])), zero_mul, zero_add]

theorem pitch_xcorr_zero (xs ys : List ℚ) (len : ℕ) (h : ∀ x ∈ xs, x = 0) :
    pitch_xcorr xs ys len = List.replicate len 0 := by
  unfold pitch_xcorr
  rw [List.map_congr_left (fun i _ => zipWith_mul_sum_zero_left xs (ys.drop i) h),
    range_map_const]

theorem biquad_filt_zero (b0 b1 a0 a1 : ℚ) (n : ℕ) :
    biquad_filt b0 b1 a0 a1 0 0 (List.replicate n 0) = List.replicate n 0 := by
  induction n with
  | zero => rfl
  | succ n ih => simp [List.replicate_succ, biquad_filt, ih]

theorem biquad_mem_zero (b0 b1 a0 a1 : ℚ) (n : ℕ) :
    biquad_mem b0 b1 a0 a1 (0, 0) (List.replicate n 0) = (0, 0) := by
  induction n with
  | zero => rfl
  | succ n ih =>
    simp only [List.replicate_succ, biquad_mem, mul_zero, add_zero, zero_add, sub_self,
      sub_zero]
    exact ih

theorem fir5_zero (n0 n1 n2 n3 n4 : ℚ) (n : ℕ) :
    fir5 n0 n1 n2 n3 n4 0 0 0 0 0 (List.replicate n 0) = List.replicate n 0 := by
  induction n with
  | zero => rfl
  | succ n ih => simp [List.replicate_succ, fir5, ih]

/-! ## Zero propagation through the env-dependent stages -/

theorem apply_window_zero (env : Env) (n : ℕ) :
    apply_window env (List.replicate n 0) = List.replicate n 0 := by
  unfold apply_window
  rw [List.length_replicate]
  rw [List.map_congr_left (fun i _ => by
    rw [getD_replicate, zero_mul] : ∀ i ∈ List.range n,
      (List.replicate n (0:ℚ)).getD i 0 * env.window i = 0)]
  exact range_map_const n 0

theorem forward_transform_zero (env : Env) (buf : List ℚ)
    (hf : ∀ k, env.fft buf k = (0, 0)) :
    forward_transform env buf = List.replicate FREQ_SIZE (0, 0) := by
  unfold forward_transform
  rw [List.map_congr_left (fun k _ => by
    rw [hf k]; norm_num : ∀ k ∈ List.range FREQ_SIZE,
      (((env.fft buf k).1 * (1 / (WINDOW_SIZE : ℚ)),
        (env.fft buf k).2 * (1 / (WINDOW_SIZE : ℚ))) : Cq) = ((0 : ℚ), (0 : ℚ)))]
  exact range_map_const FREQ_SIZE ((0 : ℚ), (0 : ℚ))

theorem inverse_transform_zero (env : Env) (l : List Cq)
    (hi : ∀ n, env.ifft l n = 0) :
    inverse_transform env l = List.replicate WINDOW_SIZE 0 := by
  unfold inverse_transform
  rw [List.map_congr_left (fun n _ => hi n)]
  exact range_map_const WINDOW_SIZE 0

theorem foldl_fixed {β : Type} (f : List ℚ → β → List ℚ) (a : List ℚ)
    (h : ∀ b, f a b = a) : ∀ l : List β, l.foldl f a = a
  | [] => rfl
  | b :: l => by rw [List.foldl_cons, h b, foldl_fixed f a h l]

theorem getD_replicate_lt {α : Type} (n i : ℕ) (a d : α) (h : i < n) :
    (List.replicate n a).getD i d = a := by
  rw [List.getD_eq_getElem?_getD, List.getElem?_replicate, if_pos h]
  rfl

theorem set_ones_step (m R : ℕ) (hR : 1 ≤ R) :
    (List.replicate m (1 : ℚ) ++ List.replicate R 0).set m 1
      = List.replicate (m + 1) 1 ++ List.replicate (R - 1) 0 := by
  rw [List.set_append, if_neg (by simp), List.length_replicate, Nat.sub_self]
  obtain ⟨R', rfl⟩ : ∃ R', R = R' + 1 := ⟨R - 1, by omega⟩
  rw [show List.replicate (R' + 1) (0 : ℚ) = 0 :: List.replicate R' 0 from rfl]
  rw [show (((0 : ℚ) :: List.replicate R' 0).set 0 1) = 1 :: List.replicate R' 0 from rfl]
  rw [List.append_cons, ← List.replicate_succ']
  simp

theorem fold_set_ones (base : ℕ) : ∀ (j R : ℕ), j ≤ R →
    (List.range j).foldl (fun (out : List ℚ) (t : ℕ) => out.set (base + t) 1)
      (List.replicate base (1 : ℚ) ++ List.replicate R 0)
    = List.replicate (base + j) 1 ++ List.replicate (R - j) 0 := by
  intro j
  induction j with
  | zero => intro R _; simp
  | succ k ih =>
    intro R hR
    rw [List.range_succ, List.foldl_append, List.foldl_cons, List.foldl_nil,
      ih R (by omega)]
    have hstep := set_ones_step (base + k) (R - k) (by omega)
    rw [hstep]
    rw [show base + k + 1 = base + (k + 1) from by omega,
      show R - k - 1 = R - (k + 1) from by omega]

theorem eband_facts : ∀ i, i < 21 →
    (EBAND_5MS.getD i 0 <<< FRAME_SIZE_SHIFT)
      + ((EBAND_5MS.getD (i + 1) 0 - EBAND_5MS.getD i 0) <<< FRAME_SIZE_SHIFT)
      = EBAND_5MS.getD (i + 1) 0 <<< FRAME_SIZE_SHIFT
    ∧ ((EBAND_5MS.getD (i + 1) 0 - EBAND_5MS.getD i 0) <<< FRAME_SIZE_SHIFT)
      ≤ FREQ_SIZE - (EBAND_5MS.getD i 0 <<< FRAME_SIZE_SHIFT) := by decide

theorem interp_ones_eval :
    interp_band_gain (List.replicate NB_BANDS 1)
      = List.replicate 400 (1 : ℚ) ++ List.replicate 81 0 := by
  unfold interp_band_gain
  have key : ∀ k, k ≤ 21 →
      (List.range k).foldl (fun (out : List ℚ) (i : ℕ) =>
        let band_size := (EBAND_5MS.getD (i + 1) 0 - EBAND_5MS.getD i 0) <<< FRAME_SIZE_SHIFT
        (List.range band_size).foldl (fun (out : List ℚ) (j : ℕ) =>
          let frac := (j : ℚ) / (band_size : ℚ)
          let idx := (EBAND_5MS.getD i 0 <<< FRAME_SIZE_SHIFT) + j
          out.set idx ((1 - frac) * (List.replicate NB_BANDS (1 : ℚ)).getD i 0
            + frac * (List.replicate NB_BANDS (1 : ℚ)).getD (i + 1) 0)) out)
        (List.replicate FREQ_SIZE (0 : ℚ))
      = List.replicate (EBAND_5MS.getD k 0 <<< FRAME_SIZE_SHIFT) 1
          ++ List.replicate (FREQ_SIZE - (EBAND_5MS.getD k 0 <<< FRAME_SIZE_SHIFT)) 0 := by
    intro k
    induction k with
    | zero =>
      intro _
      rfl
    | succ i ih =>
      intro hk
      rw [List.range_succ, List.foldl_append, List.foldl_cons, List.foldl_nil,
        ih (by omega)]
      simp only []
      rw [List.foldl_ext _
        (fun (out : List ℚ) (j : ℕ) =>
          out.set ((EBAND_5MS.getD i 0 <<< FRAME_SIZE_SHIFT) + j) 1) _
        (fun out j _ => by
          simp only []
          congr 1
          rw [getD_replicate_lt NB_BANDS i 1 0 (by
              show i < NB_BANDS
              have : NB_BANDS = 22 := rfl
              omega),
            getD_replicate_lt NB_BANDS (i + 1) 1 0 (by
              show i + 1 < NB_BANDS
              have : NB_BANDS = 22 := rfl
              omega)]
          ring)]
      rw [fold_set_ones (EBAND_5MS.getD i 0 <<< FRAME_SIZE_SHIFT)
        ((EBAND_5MS.getD (i + 1) 0 - EBAND_5MS.getD i 0) <<< FRAME_SIZE_SHIFT)
        (FREQ_SIZE - (EBAND_5MS.getD i 0 <<< FRAME_SIZE_SHIFT))
        (eband_facts i (by omega)).2]
      have h1 := (eband_facts i (by omega)).1
      rw [show (EBAND_5MS.getD i 0 <<< FRAME_SIZE_SHIFT)
            + ((EBAND_5MS.getD (i + 1) 0 - EBAND_5MS.getD i 0) <<< FRAME_SIZE_SHIFT)
          = EBAND_5MS.getD (i + 1) 0 <<< FRAME_SIZE_SHIFT from h1]
      rw [show FREQ_SIZE - (EBAND_5MS.getD i 0 <<< FRAME_SIZE_SHIFT)
            - ((EBAND_5MS.getD (i + 1) 0 - EBAND_5MS.getD i 0) <<< FRAME_SIZE_SHIFT)
          = FREQ_SIZE - (EBAND_5MS.getD (i + 1) 0 <<< FRAME_SIZE_SHIFT) from by
        omega]
  have h21 := key 21 le_rfl
  rw [show NB_BANDS - 1 = 21 from rfl, h21]
  rw [show EBAND_5MS.getD 21 0 <<< FRAME_SIZE_SHIFT = 400 from rfl]
  rfl

theorem to_spec_getD (l : List ℚ) (i : ℕ) :
    (to_spec l).getD i (0, 0) = (l.getD i 0, 0) := by
  simp only [to_spec, List.getD_eq_getElem?_getD, List.getElem?_map]
  cases l[i]? <;> simp

theorem getD_set_eq (l : List ℚ) (n : ℕ) (v d : ℚ) (h : n < l.length) :
    (l.set n v).getD n d = v := by
  rw [List.getD_eq_getElem?_getD, List.getElem?_set_self h]
  rfl

theorem getD_set_ne (l : List ℚ) (n m : ℕ) (v d : ℚ) (h : n ≠ m) :
    (l.set n v).getD m d = l.getD m d := by
  rw [List.getD_eq_getElem?_getD, List.getElem?_set_ne h, ← List.getD_eq_getElem?_getD]

theorem set_getD_self (l : List ℚ) (n : ℕ) (d : ℚ) (h : n < l.length) :
    l.set n (l.getD n d) = l := by
  apply List.ext_getElem?
  intro m
  by_cases hm : n = m
  · subst hm
    rw [List.getElem?_set_self h, List.getD_eq_getElem?_getD,
      List.getElem?_eq_getElem h]
    rfl
  · rw [List.getElem?_set_ne hm]

theorem foldl_ext_inv {α β : Type} (P : α → Prop) (f g : α → β → α) :
    ∀ (l : List β) (a : α), P a →
      (∀ acc b, b ∈ l → P acc → f acc b = g acc b) →
      (∀ acc b, P acc → P (g acc b)) →
      l.foldl f a = l.foldl g a
  | [], _, _, _, _ => rfl
  | b :: l, a, ha, hfg, hP => by
    rw [List.foldl_cons, List.foldl_cons, hfg a b (List.mem_cons_self b l) ha]
    exact foldl_ext_inv P f g l (g a b) (hP a b ha)
      (fun acc b' hb' => hfg acc b' (List.mem_cons_of_mem b hb')) hP

theorem W_getD_lt (idx : ℕ) (h : idx < 400) :
    (List.replicate 400 (1 : ℚ) ++ List.replicate 81 0).getD idx 0 = 1 := by
  rw [List.getD_append _ _ _ _ (show idx < (List.replicate 400 (1 : ℚ)).length from by
    rw [List.length_replicate]; exact h), getD_replicate_lt 400 idx 1 0 h]

theorem cbc_inner_acc (i : ℕ) (bsq : ℚ) : ∀ (j : ℕ) (out : List ℚ), i + 1 < out.length →
    (List.range j).foldl (fun (out : List ℚ) (t : ℕ) =>
        (out.set i (out.getD i 0 + (1 - (t : ℚ) / bsq))).set (i + 1)
          (out.getD (i + 1) 0 + (t : ℚ) / bsq)) out
    = (out.set i (out.getD i 0 + ∑ t ∈ Finset.range j, (1 - (t : ℚ) / bsq))).set (i + 1)
        (out.getD (i + 1) 0 + ∑ t ∈ Finset.range j, (t : ℚ) / bsq) := by
  intro j
  induction j with
  | zero =>
    intro out hlen
    simp only [List.range_zero, List.foldl_nil, Finset.range_zero, Finset.sum_empty,
      add_zero]
    rw [set_getD_self out i 0 (by omega)]
    rw [set_getD_self out (i + 1) 0 (by omega)]
  | succ k ih =>
    intro out hlen
    rw [List.range_succ, List.foldl_append, List.foldl_cons, List.foldl_nil,
      ih out hlen]
    have hlen1 : i < out.length := by omega
    have hlen2 : i + 1 < ((out.set i (out.getD i 0
        + ∑ t ∈ Finset.range k, (1 - (t : ℚ) / bsq)))).length := by
      rw [List.length_set]; omega
    rw [getD_set_ne _ (i + 1) i _ _ (by omega), getD_set_eq _ i _ _ hlen1,
      getD_set_eq _ (i + 1) _ _ hlen2]
    rw [List.set_comm _ _ _ (show i + 1 ≠ i by omega), List.set_set, List.set_set]
    rw [Finset.sum_range_succ (fun t => 1 - (t : ℚ) / bsq),
      Finset.sum_range_succ (fun t => (t : ℚ) / bsq), ← add_assoc, ← add_assoc]

theorem sum_div_eval (n : ℕ) (hn : n ≠ 0) :
    ∑ t ∈ Finset.range n, ((t : ℚ) / (n : ℚ)) = ((n : ℚ) - 1) / 2 := by
  have hg : ((∑ t ∈ Finset.range n, (t : ℚ))) * 2 = (n : ℚ) * ((n : ℚ) - 1) := by
    have h := congrArg (Nat.cast : ℕ → ℚ) (Finset.sum_range_id_mul_two n)
    push_cast [Nat.cast_sub (show 1 ≤ n by omega)] at h
    linarith [h]
  have hn' : ((n : ℚ)) ≠ 0 := Nat.cast_ne_zero.2 hn
  rw [← Finset.sum_div]
  field_simp
  linarith [hg]

theorem sum_one_sub_div_eval (n : ℕ) (hn : n ≠ 0) :
    ∑ t ∈ Finset.range n, (1 - (t : ℚ) / (n : ℚ)) = ((n : ℚ) + 1) / 2 := by
  rw [Finset.sum_sub_distrib, Finset.sum_const, Finset.card_range, sum_div_eval n hn]
  have hn' : ((n : ℚ)) ≠ 0 := Nat.cast_ne_zero.2 hn
  ring

theorem eband_facts2 : ∀ i, i < 21 →
    EBAND_5MS.getD (i + 1) 0 <<< FRAME_SIZE_SHIFT ≤ 400
    ∧ ((EBAND_5MS.getD (i + 1) 0 - EBAND_5MS.getD i 0) <<< FRAME_SIZE_SHIFT) ≠ 0 := by decide

theorem cbc_band_step (i : ℕ) (hi : i < 21) (out : List ℚ)
    (hlen : out.length = NB_BANDS) :
    (List.range ((EBAND_5MS.getD (i + 1) 0 - EBAND_5MS.getD i 0) <<< FRAME_SIZE_SHIFT)).foldl
      (fun (out : List ℚ) (j : ℕ) =>
        let frac := (j : ℚ) / ((((EBAND_5MS.getD (i + 1) 0 - EBAND_5MS.getD i 0) <<< FRAME_SIZE_SHIFT) : ℕ) : ℚ)
        let idx := (EBAND_5MS.getD i 0 <<< FRAME_SIZE_SHIFT) + j
        let xi := (to_spec (List.replicate 400 (1 : ℚ)
          ++ List.replicate 81 0)).getD idx (0, 0)
        let pv := (to_spec (List.replicate 400 (1 : ℚ)
          ++ List.replicate 81 0)).getD idx (0, 0)
        let corr := xi.1 * pv.1 + xi.2 * pv.2
        let out1 := out.set i (out.getD i 0 + (1 - frac) * corr)
        out1.set (i + 1) (out1.getD (i + 1) 0 + frac * corr)) out
    = (out.set i (out.getD i 0 + (((((EBAND_5MS.getD (i + 1) 0 - EBAND_5MS.getD i 0) <<< FRAME_SIZE_SHIFT) : ℕ) : ℚ) + 1) / 2)).set (i + 1)
        (out.getD (i + 1) 0 + (((((EBAND_5MS.getD (i + 1) 0 - EBAND_5MS.getD i 0) <<< FRAME_SIZE_SHIFT) : ℕ) : ℚ) - 1) / 2) := by
  have hpoint : ∀ (out : List ℚ), ∀ j ∈ List.range ((EBAND_5MS.getD (i + 1) 0 - EBAND_5MS.getD i 0) <<< FRAME_SIZE_SHIFT),
      (fun (out : List ℚ) (j : ℕ) =>
        let frac := (j : ℚ) / ((((EBAND_5MS.getD (i + 1) 0 - EBAND_5MS.getD i 0) <<< FRAME_SIZE_SHIFT) : ℕ) : ℚ)
        let idx := (EBAND_5MS.getD i 0 <<< FRAME_SIZE_SHIFT) + j
        let xi := (to_spec (List.replicate 400 (1 : ℚ)
          ++ List.replicate 81 0)).getD idx (0, 0)
        let pv := (to_spec (List.replicate 400 (1 : ℚ)
          ++ List.replicate 81 0)).getD idx (0, 0)
        let corr := xi.1 * pv.1 + xi.2 * pv.2
        let out1 := out.set i (out.getD i 0 + (1 - frac) * corr)
        out1.set (i + 1) (out1.getD (i + 1) 0 + frac * corr)) out j
      = (fun (out : List ℚ) (t : ℕ) =>
          (out.set i (out.getD i 0
            + (1 - (t : ℚ) / ((((EBAND_5MS.getD (i + 1) 0 - EBAND_5MS.getD i 0) <<< FRAME_SIZE_SHIFT) : ℕ) : ℚ)))).set (i + 1)
            (out.getD (i + 1) 0 + (t : ℚ) / ((((EBAND_5MS.getD (i + 1) 0 - EBAND_5MS.getD i 0) <<< FRAME_SIZE_SHIFT) : ℕ) : ℚ))) out j := by
    intro out j hj
    have hj' := List.mem_range.1 hj
    have hidx : (EBAND_5MS.getD i 0 <<< FRAME_SIZE_SHIFT) + j < 400 := by
      have h1 := (eband_facts i hi).1
      have h3 := (eband_facts2 i hi).1
      omega
    simp only []
    rw [to_spec_getD, W_getD_lt _ hidx]
    rw [show ((1 : ℚ), (0 : ℚ)).1 * ((1 : ℚ), (0 : ℚ)).1
        + ((1 : ℚ), (0 : ℚ)).2 * ((1 : ℚ), (0 : ℚ)).2 = 1 from by norm_num]
    rw [mul_one, mul_one, getD_set_ne _ i (i + 1) _ _ (by omega)]
  rw [List.foldl_ext _ _ _ hpoint]
  rw [cbc_inner_acc i ((((EBAND_5MS.getD (i + 1) 0 - EBAND_5MS.getD i 0) <<< FRAME_SIZE_SHIFT) : ℕ) : ℚ) ((EBAND_5MS.getD (i + 1) 0 - EBAND_5MS.getD i 0) <<< FRAME_SIZE_SHIFT) out (by
    rw [hlen]
    show i + 1 < NB_BANDS
    have h22 : NB_BANDS = 22 := rfl
    omega)]
  rw [sum_one_sub_div_eval _ (eband_facts2 i hi).2,
    sum_div_eval _ (eband_facts2 i hi).2]

theorem compute_band_corr_zero :
    compute_band_corr (List.replicate FREQ_SIZE ((0 : ℚ), (0 : ℚ)))
      (List.replicate FREQ_SIZE ((0 : ℚ), (0 : ℚ))) = List.replicate NB_BANDS 0 := by
  unfold compute_band_corr
  have hstep : ∀ i : ℕ,
      (fun (out : List ℚ) (i : ℕ) =>
        (List.range ((EBAND_5MS.getD (i + 1) 0 - EBAND_5MS.getD i 0) <<< FRAME_SIZE_SHIFT)).foldl
          (fun (out : List ℚ) (j : ℕ) =>
            let frac := (j : ℚ)
              / (((EBAND_5MS.getD (i + 1) 0 - EBAND_5MS.getD i 0) <<< FRAME_SIZE_SHIFT : ℕ) : ℚ)
            let idx := (EBAND_5MS.getD i 0 <<< FRAME_SIZE_SHIFT) + j
            let xi := (List.replicate FREQ_SIZE ((0 : ℚ), (0 : ℚ))).getD idx (0, 0)
            let pv := (List.replicate FREQ_SIZE ((0 : ℚ), (0 : ℚ))).getD idx (0, 0)
            let corr := xi.1 * pv.1 + xi.2 * pv.2
            let out1 := out.set i (out.getD i 0 + (1 - frac) * corr)
            out1.set (i + 1) (out1.getD (i + 1) 0 + frac * corr)) out)
        (List.replicate NB_BANDS (0 : ℚ)) i = List.replicate NB_BANDS (0 : ℚ) := by
    intro i
    refine foldl_fixed _ _ (fun j => ?_) _
    simp only [getD_replicate, zero_mul, mul_zero, add_zero, zero_add,
      List.set_replicate_self]
  rw [foldl_fixed _ _ hstep (List.range (NB_BANDS - 1))]
  simp only [getD_replicate, zero_mul, List.set_replicate_self]

set_option maxRecDepth 4000 in
theorem band_weights_eval :
    compute_band_corr (to_spec (interp_band_gain (List.replicate NB_BANDS 1)))
      (to_spec (interp_band_gain (List.replicate NB_BANDS 1))) = band_weights := by
  rw [interp_ones_eval]
  unfold compute_band_corr
  rw [foldl_ext_inv (fun l => l.length = NB_BANDS)
    (fun (out : List ℚ) (i : ℕ) =>
      let band_size := ((EBAND_5MS.getD (i + 1) 0 - EBAND_5MS.getD i 0) <<< FRAME_SIZE_SHIFT)
      (List.range band_size).foldl (fun (out : List ℚ) (j : ℕ) =>
        let frac := (j : ℚ) / ((band_size : ℕ) : ℚ)
        let idx := (EBAND_5MS.getD i 0 <<< FRAME_SIZE_SHIFT) + j
        let xi := (to_spec (List.replicate 400 (1 : ℚ)
          ++ List.replicate 81 0)).getD idx (0, 0)
        let pv := (to_spec (List.replicate 400 (1 : ℚ)
          ++ List.replicate 81 0)).getD idx (0, 0)
        let corr := xi.1 * pv.1 + xi.2 * pv.2
        let out1 := out.set i (out.getD i 0 + (1 - frac) * corr)
        out1.set (i + 1) (out1.getD (i + 1) 0 + frac * corr)) out)
    (fun (out : List ℚ) (i : ℕ) =>
      (out.set i (out.getD i 0 + (((((EBAND_5MS.getD (i + 1) 0 - EBAND_5MS.getD i 0) <<< FRAME_SIZE_SHIFT) : ℕ) : ℚ) + 1) / 2)).set (i + 1)
        (out.getD (i + 1) 0 + (((((EBAND_5MS.getD (i + 1) 0 - EBAND_5MS.getD i 0) <<< FRAME_SIZE_SHIFT) : ℕ) : ℚ) - 1) / 2))
    (List.range (NB_BANDS - 1)) (List.replicate NB_BANDS 0)
    (by
      show (List.replicate NB_BANDS (0 : ℚ)).length = NB_BANDS
      rw [List.length_replicate])
    (fun acc i hi hlen => by
      have hi21 : i < 21 := by
        have h := List.mem_range.1 hi
        have h21 : NB_BANDS - 1 = 21 := rfl
        omega
      exact cbc_band_step i hi21 acc hlen)
    (fun acc i hlen => by
      show (((acc.set i _).set (i + 1) _)).length = NB_BANDS
      rw [List.length_set, List.length_set]
      exact hlen)]
  with_unfolding_all decide

theorem frame_synthesis_zero (env : Env) (y : List Cq)
    (hi : ∀ n, env.ifft y n = 0) :
    frame_synthesis env (List.replicate FRAME_SIZE 0) y
      = (List.replicate FRAME_SIZE 0, List.replicate FRAME_SIZE 0) := by
  unfold frame_synthesis
  rw [inverse_transform_zero env y hi,
    show WINDOW_SIZE = FRAME_SIZE + FRAME_SIZE from rfl]
  rw [apply_window_zero env (FRAME_SIZE + FRAME_SIZE)]
  have h1 : ∀ i ∈ List.range FRAME_SIZE,
      (List.replicate (FRAME_SIZE + FRAME_SIZE) (0:ℚ)).getD i 0
        + (List.replicate FRAME_SIZE (0:ℚ)).getD i 0 = 0 := by
    intro i _
    rw [getD_replicate, getD_replicate, add_zero]
  have h2 : ∀ i ∈ List.range FRAME_SIZE,
      (List.replicate (FRAME_SIZE + FRAME_SIZE) (0:ℚ)).getD (FRAME_SIZE + i) 0 = 0 :=
    fun i _ => getD_replicate _ _ _
  apply Prod.ext
  · show (List.range FRAME_SIZE).map (fun i =>
        (List.replicate (FRAME_SIZE + FRAME_SIZE) (0:ℚ)).getD i 0
          + (List.replicate FRAME_SIZE (0:ℚ)).getD i 0) = List.replicate FRAME_SIZE 0
    rw [List.map_congr_left h1]
    exact range_map_const FRAME_SIZE 0
  · show (List.range FRAME_SIZE).map (fun i =>
        (List.replicate (FRAME_SIZE + FRAME_SIZE) (0:ℚ)).getD (FRAME_SIZE + i) 0)
      = List.replicate FRAME_SIZE 0
    rw [List.map_congr_left h2]
    exact range_map_const FRAME_SIZE 0

/-! ## Zero propagation through the pitch subsystem -/

theorem pitch_downsample_lp_zero (n : ℕ) :
    pitch_downsample_lp (List.replicate n 0) = List.replicate (n / 2) 0 := by
  unfold pitch_downsample_lp
  rw [List.length_replicate]
  rw [List.map_congr_left (fun i _ => by
    split <;> rw [getD_replicate, getD_replicate] <;> [skip; rw [getD_replicate]] <;>
      norm_num : ∀ i ∈ List.range (n / 2), _ = (0:ℚ))]
  exact range_map_const _ 0

theorem celt_autocorr_zero (m acLen : ℕ) :
    celt_autocorr (List.replicate m 0) acLen = List.replicate acLen 0 := by
  simp only [celt_autocorr]
  rw [List.length_replicate, List.take_replicate,
    pitch_xcorr_zero _ _ _ (fun a ha => List.eq_of_mem_replicate ha)]
  rw [List.map_congr_left (fun k _ => by
    rw [getD_replicate]
    rw [List.map_congr_left (fun t _ => by
      rw [getD_replicate, zero_mul] : ∀ t ∈ List.range (m - (k + (m - (acLen - 1)))),
        (List.replicate m (0:ℚ)).getD (k + (m - (acLen - 1)) + t) 0 *
          (List.replicate m (0:ℚ)).getD (k + (m - (acLen - 1)) + t - k) 0 = 0)]
    rw [range_map_const]
    simp : ∀ k ∈ List.range acLen, _ = (0:ℚ))]
  exact range_map_const _ 0

theorem lag_window_zero : lag_window (List.replicate 5 0) = List.replicate 5 0 := by
  with_unfolding_all decide

theorem lpc_ac0_zero (p : ℕ) (ac : List ℚ) (h : ac.getD 0 0 = 0) :
    lpc p ac = List.replicate p 0 := by
  unfold lpc
  rw [if_pos h]

theorem lpc_to_fir_zero : lpc_to_fir (List.replicate 4 0) = [4/5, 0, 0, 0, 0] := by
  with_unfolding_all decide

theorem fir5_in_place_zero (n : ℕ) (num : List ℚ) :
    fir5_in_place (List.replicate n 0) num = List.replicate n 0 := by
  unfold fir5_in_place
  exact fir5_zero _ _ _ _ _ n

theorem pitch_downsample_zero :
    pitch_downsample (List.replicate PITCH_BUF_SIZE 0)
      = List.replicate (PITCH_BUF_SIZE / 2) 0 := by
  simp only [pitch_downsample]
  rw [pitch_downsample_lp_zero, celt_autocorr_zero, lag_window_zero,
    lpc_ac0_zero 4 _ (getD_replicate _ _ _), lpc_to_fir_zero, fir5_in_place_zero]

theorem fbp_fold_pitches (xcorr ys : List ℚ) (len : ℕ)
    (h : ∀ i, xcorr.getD i 0 ≤ 0) (l : List ℕ) (S : FbpState) :
    (l.foldl (find_best_pitch_step xcorr ys len) S).best_pitch = S.best_pitch ∧
    (l.foldl (find_best_pitch_step xcorr ys len) S).second_best_pitch
      = S.second_best_pitch := by
  induction l generalizing S with
  | nil => exact ⟨rfl, rfl⟩
  | cons i l ih =>
    rw [List.foldl_cons]
    refine ⟨?_, ?_⟩ <;>
    · rw [show find_best_pitch_step xcorr ys len S i
          = { S with y_sq_norm := max (S.y_sq_norm
              + ys.getD (i + len) 0 * ys.getD (i + len) 0
              - ys.getD i 0 * ys.getD i 0) 1 } from by
        simp only [find_best_pitch_step, if_neg (not_lt.2 (h i))]]
      simp [ih]

theorem find_best_pitch_nonpos (xcorr ys : List ℚ) (len : ℕ)
    (h : ∀ i, xcorr.getD i 0 ≤ 0) : find_best_pitch xcorr ys len = (0, 1) := by
  unfold find_best_pitch
  have := fbp_fold_pitches xcorr ys len h (List.range xcorr.length)
    ⟨-1, 0, 0, -1, 0, 1, 1 + ((ys.take len).map fun y => y * y).sum⟩
  rw [Prod.mk.injEq]
  exact ⟨this.1, this.2⟩

theorem pitch_search_zero (x_lp y : List ℚ) (len mp : ℕ)
    (h : ∀ a ∈ x_lp, a = 0) : pitch_search x_lp y len mp = 0 := by
  simp only [pitch_search]
  have hx4 : (List.range (len / 4)).map (fun j => x_lp.getD (2 * j) 0)
      = List.replicate (len / 4) (0:ℚ) := by
    rw [List.map_congr_left (fun j _ => getD_zero_of_forall_zero h (2 * j))]
    exact range_map_const _ 0
  rw [hx4, pitch_xcorr_zero _ _ _ (fun a ha => List.eq_of_mem_replicate ha),
    find_best_pitch_nonpos _ _ _ (fun i => le_of_eq (getD_replicate _ _ _))]
  have hx2 : ∀ i ∈ List.range (mp / 2),
      (if 2 < ((i : ℤ) - 2 * ((((0:ℕ), (1:ℕ)).1 : ℕ) : ℤ)).natAbs ∧
          2 < ((i : ℤ) - 2 * ((((0:ℕ), (1:ℕ)).2 : ℕ) : ℤ)).natAbs then 0
       else max (inner_prod x_lp (y.drop i) (len / 2)) (-1)) = (0:ℚ) := by
    intro i _
    split
    · rfl
    · rw [inner_prod_zero_left _ _ _ h]
      exact max_eq_left (by norm_num)
  rw [List.map_congr_left hx2, range_map_const,
    find_best_pitch_nonpos _ _ _ (fun i => le_of_eq (getD_replicate _ _ _))]
  norm_num

theorem rd_lookup_fold_zero (x : List ℚ) (hx : ∀ a, x.getD a 0 = 0) (mp n : ℕ)
    (ks : List ℕ) : ∀ (m : ℕ),
    ks.foldl (rd_lookup_step x mp n) (List.replicate m 0, 0)
      = (List.replicate (m + ks.length) 0, 0) := by
  induction ks with
  | nil => intro m; simp
  | cons k ks ih =>
    intro m
    rw [List.foldl_cons]
    rw [show rd_lookup_step x mp n (List.replicate m 0, 0) k
        = ((List.replicate (m + 1) 0 : List ℚ), (0:ℚ)) from by
      simp only [rd_lookup_step, hx, mul_zero, add_zero, sub_zero, zero_mul, sub_self,
        max_self]
      rw [← List.replicate_succ']]
    rw [ih (m + 1), show m + 1 + ks.length = m + (ks.length + 1) from by omega]
    rfl

theorem remove_doubling_lookup_zero (m mp n : ℕ) :
    remove_doubling_lookup (List.replicate m 0) mp n = List.replicate (mp + 1) 0 := by
  simp only [remove_doubling_lookup]
  rw [List.drop_replicate,
    inner_prod_zero_left _ _ _ (fun a ha => List.eq_of_mem_replicate ha)]
  have h0 : ∀ a, (List.replicate m (0:ℚ)).getD a 0 = 0 := fun a => getD_replicate _ _ _
  have := rd_lookup_fold_zero (List.replicate m 0) h0 mp n (List.range' 1 mp) 1
  rw [List.length_range'] at this
  rw [show ([(0:ℚ)] : List ℚ) = List.replicate 1 0 from rfl, this]
  rw [show 1 + mp = mp + 1 from by omega]

theorem thresh_nonneg (c1 c2 : Prop) [Decidable c1] [Decidable c2] (e1 e2 e3 : ℚ) :
    ¬ ((if c1 then e1 ⊔ (4:ℚ)/10 else if c2 then e2 ⊔ 5/10 else e3 ⊔ 3/10) < 0) := by
  refine not_lt.2 ?_
  split
  · exact le_trans (by norm_num) (le_max_right _ _)
  · split
    · exact le_trans (by norm_num) (le_max_right _ _)
    · exact le_trans (by norm_num) (le_max_right _ _)

theorem rd_step_zero (env : Env) (prev k : ℕ) (s : RdState) :
    remove_doubling_step env (List.replicate 864 0) 384 30 480 383 prev 0 0 0
      (List.replicate 385 0) s k = s ∨
    remove_doubling_step env (List.replicate 864 0) 384 30 480 383 prev 0 0 0
      (List.replicate 385 0) s k = { s with done := true } := by
  simp only [remove_doubling_step]
  split
  · left; rfl
  · split
    · right; rfl
    · have hip : ∀ a b c, inner_prod ((List.replicate 864 (0:ℚ)).drop a)
          ((List.replicate 864 (0:ℚ)).drop b) c = 0 := by
        intro a b c
        rw [List.drop_replicate, List.drop_replicate]
        exact inner_prod_zero_left _ _ _ (fun q hq => List.eq_of_mem_replicate hq)
      rw [hip, hip, getD_replicate, getD_replicate,
        show ((0:ℚ) + 0) / 2 = 0 from by norm_num,
        show pitch_gain env 0 0 0 = 0 from by simp [pitch_gain]]
      rw [if_neg (thresh_nonneg _ _ _ _ _)]
      left
      rfl

theorem rd_loop_zero (env : Env) (prev : ℕ) (ks : List ℕ) : ∀ (s : RdState),
    ks.foldl (remove_doubling_step env (List.replicate 864 0) 384 30 480 383 prev 0 0 0
      (List.replicate 385 0)) s = s ∨
    ks.foldl (remove_doubling_step env (List.replicate 864 0) 384 30 480 383 prev 0 0 0
      (List.replicate 385 0)) s = { s with done := true } := by
  induction ks with
  | nil => intro s; left; rfl
  | cons k ks ih =>
    intro s
    rw [List.foldl_cons]
    rcases rd_step_zero env prev k s with h | h <;> rw [h]
    · exact ih s
    · rcases ih { s with done := true } with h2 | h2 <;> rw [h2] <;> right <;> rfl

theorem remove_doubling_zero (env : Env) (prev : ℕ) :
    remove_doubling env (List.replicate 864 0) 768 60 960 768 prev 0 = (766, 0) := by
  simp only [remove_doubling]
  norm_num
  have hip : ∀ a b c, inner_prod (List.replicate a (0:ℚ)) (List.replicate b (0:ℚ)) c = 0 :=
    fun a b c => inner_prod_zero_left _ _ _ (fun q hq => List.eq_of_mem_replicate hq)
  rw [remove_doubling_lookup_zero]
  simp only [hip, List.getD_eq_getElem?_getD, List.getElem?_replicate]
  norm_num
  rw [show pitch_gain env 0 0 0 = 0 from by simp [pitch_gain]]
  rcases rd_loop_zero env (prev / 2) (List.range' 2 14) ⟨383, 0, 0, 0, false⟩ with h | h <;>
    rw [h] <;> norm_num <;> rfl

theorem range_map_getD_zero (m n : ℕ) (f : ℕ → ℕ) :
    (List.range n).map (fun i => (List.replicate m (0:ℚ)).getD (f i) 0)
      = List.replicate n 0 := by
  rw [List.map_congr_left (fun i _ => getD_replicate m (f i) 0)]
  exact range_map_const n 0

theorem ly_fold_e (ex : List ℚ) (env : Env) (l : List ℕ) : ∀ s : List ℚ × ℚ × ℚ × ℚ,
    (l.foldl (ly_step ex env) s).2.2.2 = s.2.2.2 + (l.map fun i => ex.getD i 0).sum := by
  induction l with
  | nil => intro s; simp
  | cons i l ih =>
    intro s
    rw [List.foldl_cons, ih, List.map_cons, List.sum_cons]
    show _ + _ = s.2.2.2 + (ex.getD i 0 + _)
    rw [show (ly_step ex env s i).2.2.2 = s.2.2.2 + ex.getD i 0 from rfl]
    ring

theorem cff_pb_zero (p : ℕ) :
    cff_pb (zstate p) (List.replicate FRAME_SIZE 0)
      = List.replicate PITCH_BUF_SIZE 0 := by
  unfold cff_pb
  rw [show (zstate p).pitch_buf = List.replicate PITCH_BUF_SIZE 0 from rfl,
    range_map_getD_zero PITCH_BUF_SIZE (PITCH_BUF_SIZE - FRAME_SIZE) (fun i => i + FRAME_SIZE),
    range_map_getD_zero FRAME_SIZE FRAME_SIZE (fun i => i), ← List.replicate_add,
    show PITCH_BUF_SIZE - FRAME_SIZE + FRAME_SIZE = PITCH_BUF_SIZE from by decide]

theorem cff_pitch_zero (env : Env) (p : ℕ) :
    cff_pitch env (zstate p) (List.replicate FRAME_SIZE 0) = (766, 0) := by
  simp only [cff_pitch]
  rw [cff_pb_zero, pitch_downsample_zero, List.drop_replicate]
  rw [pitch_search_zero _ _ _ _ (fun a ha => List.eq_of_mem_replicate ha)]
  show remove_doubling env (List.replicate (PITCH_BUF_SIZE / 2) 0) PITCH_MAX_PERIOD
    PITCH_MIN_PERIOD PITCH_FRAME_SIZE (PITCH_MAX_PERIOD - 0) (zstate p).last_period
    (zstate p).last_gain = (766, 0)
  rw [show (zstate p).last_period = p from rfl, show (zstate p).last_gain = 0 from rfl]
  rw [show PITCH_BUF_SIZE / 2 = 864 from by decide]
  rw [show PITCH_MAX_PERIOD - 0 = 768 from rfl]
  exact remove_doubling_zero env p

theorem cff_state2_zero (env : Env) (p : ℕ) :
    cff_state2 env (zstate p) (List.replicate FRAME_SIZE 0) = zstate 766 := by
  unfold cff_state2
  rw [cff_pb_zero, cff_pitch_zero]
  rfl

theorem cff_p_spectrum_zero (env : Env) (p : ℕ)
    (hf : ∀ k, env.fft (List.replicate WINDOW_SIZE 0) k = (0, 0)) :
    cff_p_spectrum env (zstate p) (List.replicate FRAME_SIZE 0)
      = List.replicate FREQ_SIZE (0, 0) := by
  simp only [cff_p_spectrum]
  rw [cff_pb_zero, cff_pitch_zero]
  rw [range_map_getD_zero PITCH_BUF_SIZE WINDOW_SIZE _, apply_window_zero]
  exact forward_transform_zero env _ hf

theorem cff_exps_zero (env : Env) :
    cff_exps env (List.replicate FREQ_SIZE (0, 0)) (List.replicate FREQ_SIZE (0, 0))
      (List.replicate NB_BANDS 0) (List.replicate NB_BANDS 0)
      = List.replicate NB_BANDS 0 := by
  unfold cff_exps
  rw [compute_band_corr_zero]
  rw [List.map_congr_left (fun i _ => by
    rw [getD_replicate, zero_div] : ∀ i ∈ List.range NB_BANDS,
      (List.replicate NB_BANDS (0:ℚ)).getD i 0
        / env.sqrt (1/1000 + (List.replicate NB_BANDS (0:ℚ)).getD i 0
            * (List.replicate NB_BANDS (0:ℚ)).getD i 0) = 0)]
  exact range_map_const NB_BANDS 0

theorem frame_analysis_zero (env : Env) (p : ℕ)
    (hf : ∀ k, env.fft (List.replicate WINDOW_SIZE 0) k = (0, 0)) :
    frame_analysis env (zstate p) (List.replicate FRAME_SIZE 0)
      = (zstate p, List.replicate FREQ_SIZE (0, 0), List.replicate NB_BANDS 0) := by
  simp only [frame_analysis]
  rw [show (zstate p).analysis_mem = List.replicate FRAME_SIZE 0 from rfl,
    range_map_getD_zero FRAME_SIZE FRAME_SIZE (fun i => i), ← List.replicate_add,
    show FRAME_SIZE + FRAME_SIZE = WINDOW_SIZE from by decide,
    apply_window_zero, forward_transform_zero env _ hf, compute_band_corr_zero]
  rfl

theorem compute_frame_features_zero (env : Env) (p : ℕ)
    (hf : ∀ k, env.fft (List.replicate WINDOW_SIZE 0) k = (0, 0)) :
    compute_frame_features env (zstate p) (List.replicate FRAME_SIZE 0)
      = { state := zstate 766, x := List.replicate FREQ_SIZE (0, 0),
          p := List.replicate FREQ_SIZE (0, 0), ex := List.replicate NB_BANDS 0,
          ep := List.replicate NB_BANDS 0, exps := List.replicate NB_BANDS 0,
          features := List.replicate NB_FEATURES 0, silence := true } := by
  simp only [compute_frame_features]
  rw [frame_analysis_zero env p hf]
  have he : ((List.range NB_BANDS).foldl
      (ly_step (zstate p, List.replicate FREQ_SIZE ((0:ℚ), (0:ℚ)),
        List.replicate NB_BANDS (0:ℚ)).2.2 env)
      (List.replicate NB_BANDS 0, -2, -2, 0)).2.2.2 = 0 := by
    rw [ly_fold_e]
    rw [List.map_congr_left (fun i _ => getD_replicate NB_BANDS i 0), range_map_const]
    simp
  rw [if_pos (by rw [he]; norm_num)]
  rw [show (zstate p, List.replicate FREQ_SIZE ((0:ℚ), (0:ℚ)),
      List.replicate NB_BANDS (0:ℚ)).1 = zstate p from rfl]
  rw [cff_state2_zero, cff_p_spectrum_zero env p hf]
  rw [show (zstate p, List.replicate FREQ_SIZE ((0:ℚ), (0:ℚ)),
      List.replicate NB_BANDS (0:ℚ)).2.1 = List.replicate FREQ_SIZE (0, 0) from rfl,
    show (zstate p, List.replicate FREQ_SIZE ((0:ℚ), (0:ℚ)),
      List.replicate NB_BANDS (0:ℚ)).2.2 = List.replicate NB_BANDS 0 from rfl]
  rw [compute_band_corr_zero, cff_exps_zero]

theorem hp_state_zero (p : ℕ) :
    hp_state (zstate p) (List.replicate FRAME_SIZE 0) = zstate p := by
  unfold hp_state
  rw [show (zstate p).mem_hp_x = ((0:ℚ), (0:ℚ)) from rfl, biquad_mem_zero]
  rfl

theorem hp_out_zero (p : ℕ) :
    hp_out (zstate p) (List.replicate FRAME_SIZE 0) = List.replicate FRAME_SIZE 0 := by
  unfold hp_out
  rw [show (zstate p).mem_hp_x.1 = (0:ℚ) from rfl,
    show (zstate p).mem_hp_x.2 = (0:ℚ) from rfl]
  exact biquad_filt_zero _ _ _ _ _

theorem process_frame_zero (env : Env) (p : ℕ)
    (hf : ∀ k, env.fft (List.replicate WINDOW_SIZE 0) k = (0, 0))
    (hi : ∀ n, env.ifft (List.replicate FREQ_SIZE (0, 0)) n = 0) :
    process_frame env (zstate p) (List.replicate FRAME_SIZE 0)
      = ⟨zstate 766, List.replicate FRAME_SIZE 0, 0⟩ := by
  simp only [process_frame, feat_of]
  rw [hp_state_zero, hp_out_zero, compute_frame_features_zero env p hf]
  dsimp only
  simp only [Bool.cond_true, process_frame_pass]
  rw [show (zstate 766).synthesis_mem = List.replicate FRAME_SIZE 0 from rfl]
  rw [frame_synthesis_zero env _ hi]
  rfl

/-- C7: feeding a fresh `DenoiseState` all-zero frames, every output frame (in
exact arithmetic, from the first frame on, hence in particular every frame after
the first) is all-zero, and the VAD probability returned by each call is 0, in
particular below 0.1.  Proved for every environment whose FFT maps the zero buffer
to the zero spectrum and vice versa. -/
theorem c7_zero_input_stability (env : Env)
    (hf : ∀ k, env.fft (List.replicate WINDOW_SIZE 0) k = (0, 0))
    (hi : ∀ n, env.ifft (List.replicate FREQ_SIZE (0, 0)) n = 0) (k : ℕ) :
    (zrun env (k + 1)).output = List.replicate FRAME_SIZE 0 ∧
    (zrun env (k + 1)).vad < 1/10 := by
  have hstate : ∀ m, (zrun env m).state = zstate (if m = 0 then 0 else 766) := by
    intro m
    induction m with
    | zero => rfl
    | succ m ihm =>
      show (process_frame env (zrun env m).state (List.replicate FRAME_SIZE 0)).state = _
      rw [ihm, process_frame_zero env _ hf hi]
      simp
  show (process_frame env (zrun env k).state (List.replicate FRAME_SIZE 0)).output = _ ∧
    (process_frame env (zrun env k).state (List.replicate FRAME_SIZE 0)).vad < 1/10
  rw [hstate k, process_frame_zero env _ hf hi]
  exact ⟨rfl, by norm_num⟩

/-- Witness for C7 at the concrete environment `env0`, after one zero frame. -/
theorem c7_zero_input_stability_witness :
    (zrun env0 1).output = List.replicate FRAME_SIZE 0 ∧ (zrun env0 1).vad < 1/10 :=
  c7_zero_input_stability env0 (fun _ => rfl) (fun _ => rfl) 0

/-! ## Structural lemmas about the per-frame pipeline -/

theorem biquad_filt_length (b0 b1 a0 a1 : ℚ) (xs : List ℚ) : ∀ (m0 m1 : ℚ),
    (biquad_filt b0 b1 a0 a1 m0 m1 xs).length = xs.length := by
  induction xs with
  | nil => intro m0 m1; rfl
  | cons x xs ih => intro m0 m1; simp only [biquad_filt, List.length_cons, ih]

theorem hp_out_length (st : DenoiseState) (input : List ℚ) :
    (hp_out st input).length = input.length := by
  unfold hp_out
  exact biquad_filt_length _ _ _ _ _ _ _

theorem feat_state_pitch_buf (env : Env) (st : DenoiseState) (input : List ℚ) :
    (compute_frame_features env st input).state.pitch_buf = cff_pb st input := by
  simp only [compute_frame_features]
  split
  · rfl
  · simp only [cff_nonsilent]
    split <;> rfl

theorem feat_state_lastg (env : Env) (st : DenoiseState) (input : List ℚ) :
    (compute_frame_features env st input).state.lastg = st.lastg := by
  simp only [compute_frame_features]
  split
  · rfl
  · simp only [cff_nonsilent]
    split <;> rfl

theorem feat_state_synthesis_mem (env : Env) (st : DenoiseState) (input : List ℚ) :
    (compute_frame_features env st input).state.synthesis_mem = st.synthesis_mem := by
  simp only [compute_frame_features]
  split
  · rfl
  · simp only [cff_nonsilent]
    split <;> rfl

theorem feat_state_rnn (env : Env) (st : DenoiseState) (input : List ℚ) :
    (compute_frame_features env st input).state.rnn = st.rnn := by
  simp only [compute_frame_features]
  split
  · rfl
  · simp only [cff_nonsilent]
    split <;> rfl

theorem process_frame_silent (env : Env) (st : DenoiseState) (input : List ℚ)
    (hb : (feat_of env st input).silence = true) :
    process_frame env st input = process_frame_pass env (feat_of env st input) := by
  simp only [process_frame]
  rw [hb, Bool.cond_true]

theorem process_frame_nonsilent (env : Env) (st : DenoiseState) (input : List ℚ)
    (hb : (feat_of env st input).silence = false) :
    process_frame env st input = process_frame_gain env (feat_of env st input) := by
  simp only [process_frame]
  rw [hb, Bool.cond_false]

theorem process_frame_pitch_buf (env : Env) (st : DenoiseState) (input : List ℚ) :
    (process_frame env st input).state.pitch_buf
      = cff_pb (hp_state st input) (hp_out st input) := by
  simp only [process_frame]
  cases hb : (feat_of env st input).silence <;>
    simp only [Bool.cond_true, Bool.cond_false, process_frame_pass, process_frame_gain] <;>
    exact feat_state_pitch_buf env (hp_state st input) (hp_out st input)

theorem pitch_buf_tail (env : Env) (st : DenoiseState) (input : List ℚ)
    (hlen : input.length = FRAME_SIZE) :
    ((process_frame env st input).state.pitch_buf).drop (PITCH_BUF_SIZE - FRAME_SIZE)
      = hp_out st input := by
  rw [process_frame_pitch_buf]
  unfold cff_pb
  rw [List.drop_left' (by simp)]
  have : (hp_out st input).length = FRAME_SIZE := by rw [hp_out_length, hlen]
  rw [← this]
  exact range_map_getD_eq (hp_out st input) 0

/-- C1 (amended): the 480 samples appended to `state.pitch_buf` by a call to
`process_frame` are the output of the biquad high-pass stage applied to the
caller's input (`x_time`), not the raw input itself: after the call the last
`FRAME_SIZE` entries of `pitch_buf` equal `hp_out st input`. -/
theorem c1_pitch_buf_highpassed (env : Env) (st : DenoiseState) (input : List ℚ)
    (hlen : input.length = FRAME_SIZE) :
    ((process_frame env st input).state.pitch_buf).drop (PITCH_BUF_SIZE - FRAME_SIZE)
      = hp_out st input :=
  pitch_buf_tail env st input hlen

set_option maxRecDepth 10000 in
/-- Witness for the amended C1 at a concrete call. -/
theorem c1_pitch_buf_highpassed_witness :
    (List.replicate FRAME_SIZE (0:ℚ)).length = FRAME_SIZE ∧
    ((process_frame env0 DenoiseState.new
        (List.replicate FRAME_SIZE 0)).state.pitch_buf).drop
        (PITCH_BUF_SIZE - FRAME_SIZE)
      = hp_out DenoiseState.new (List.replicate FRAME_SIZE 0) :=
  ⟨by decide, c1_pitch_buf_highpassed env0 DenoiseState.new
    (List.replicate FRAME_SIZE 0) (by decide)⟩

set_option maxRecDepth 10000 in
/-- C1 (counterexample): at a concrete call on a fresh state with an impulse input,
the last 480 entries of `pitch_buf` differ from the caller's input slice, so the
appended samples are not the raw input. -/
theorem c1_counterexample :
    ¬ (((process_frame env0 DenoiseState.new input_c1).state.pitch_buf).drop
        (PITCH_BUF_SIZE - FRAME_SIZE) = input_c1) := by
  rw [pitch_buf_tail env0 DenoiseState.new input_c1 (by decide)]
  intro h
  have h1 := congrArg (fun l => l.getD 1 0) h
  have h2 : (hp_out DenoiseState.new input_c1).getD 1 0 ≠ input_c1.getD 1 0 := by
    with_unfolding_all decide
  exact h2 h1

theorem feat_of_silent (env : Env) (st : DenoiseState) (input : List ℚ)
    (hsil : frame_energy env st input < 1/25) :
    feat_of env st input
      = ⟨cff_state2 env (frame_analysis env (hp_state st input) (hp_out st input)).1
           (hp_out st input),
         (frame_analysis env (hp_state st input) (hp_out st input)).2.1,
         cff_p_spectrum env (frame_analysis env (hp_state st input) (hp_out st input)).1
           (hp_out st input),
         (frame_analysis env (hp_state st input) (hp_out st input)).2.2,
         compute_band_corr
           (cff_p_spectrum env (frame_analysis env (hp_state st input) (hp_out st input)).1
             (hp_out st input))
           (cff_p_spectrum env (frame_analysis env (hp_state st input) (hp_out st input)).1
             (hp_out st input)),
         cff_exps env (frame_analysis env (hp_state st input) (hp_out st input)).2.1
           (cff_p_spectrum env (frame_analysis env (hp_state st input) (hp_out st input)).1
             (hp_out st input))
           (frame_analysis env (hp_state st input) (hp_out st input)).2.2
           (compute_band_corr
             (cff_p_spectrum env
               (frame_analysis env (hp_state st input) (hp_out st input)).1
               (hp_out st input))
             (cff_p_spectrum env
               (frame_analysis env (hp_state st input) (hp_out st input)).1
               (hp_out st input))),
         List.replicate NB_FEATURES 0, true⟩ := by
  have he : ((List.range NB_BANDS).foldl
      (ly_step (frame_analysis env (hp_state st input) (hp_out st input)).2.2 env)
      (List.replicate NB_BANDS 0, -2, -2, 0)).2.2.2 = frame_energy env st input := by
    rw [ly_fold_e, sum_range_map]
    show (0:ℚ) + _ = _
    rw [zero_add]
    rfl
  simp only [feat_of, compute_frame_features]
  rw [if_pos (by rw [he]; exact hsil)]

set_option maxRecDepth 40000 in
/-- C2: whenever the band-energy sum of the analysed frame is below 0.04,
`process_frame` takes the silence branch: the feature vector is zeroed, the RNN is
not invoked (the RNN hidden state is untouched), the spectrum produced by frame
analysis is passed to synthesis unchanged (equivalently, the per-bin gain buffer
`gf` keeps its initial all-ones value), and `cepstral_mem`, `mem_id` and `lastg`
are unchanged. -/
theorem c2_silence_branch (env : Env) (st : DenoiseState) (input : List ℚ)
    (hsil : frame_energy env st input < 1/25) :
    (feat_of env st input).silence = true ∧
    (feat_of env st input).features = List.replicate NB_FEATURES 0 ∧
    (process_frame env st input).state.cepstral_mem = st.cepstral_mem ∧
    (process_frame env st input).state.mem_id = st.mem_id ∧
    (process_frame env st input).state.lastg = st.lastg ∧
    (process_frame env st input).state.rnn = st.rnn ∧
    (process_frame env st input).output
      = (frame_synthesis env st.synthesis_mem (analysis_spectrum env st input)).1 := by
  have hfo := feat_of_silent env st input hsil
  have hsilb : (feat_of env st input).silence = true := by rw [hfo]
  refine ⟨hsilb, by rw [hfo], ?_, ?_, ?_, ?_, ?_⟩ <;>
  · rw [process_frame_silent env st input hsilb, hfo]
    rfl

/-- Witness for C2: the concrete environment `env0` with a fresh state and an
all-zero frame satisfies the silence hypothesis. -/
theorem c2_silence_branch_witness :
    frame_energy env0 DenoiseState.new (List.replicate FRAME_SIZE 0) < 1/25 ∧
    ((feat_of env0 DenoiseState.new (List.replicate FRAME_SIZE 0)).silence = true ∧
     (feat_of env0 DenoiseState.new (List.replicate FRAME_SIZE 0)).features
       = List.replicate NB_FEATURES 0 ∧
     (process_frame env0 DenoiseState.new
        (List.replicate FRAME_SIZE 0)).state.cepstral_mem
       = DenoiseState.new.cepstral_mem ∧
     (process_frame env0 DenoiseState.new (List.replicate FRAME_SIZE 0)).state.mem_id
       = DenoiseState.new.mem_id ∧
     (process_frame env0 DenoiseState.new (List.replicate FRAME_SIZE 0)).state.lastg
       = DenoiseState.new.lastg ∧
     (process_frame env0 DenoiseState.new (List.replicate FRAME_SIZE 0)).state.rnn
       = DenoiseState.new.rnn ∧
     (process_frame env0 DenoiseState.new (List.replicate FRAME_SIZE 0)).output
       = (frame_synthesis env0 DenoiseState.new.synthesis_mem
           (analysis_spectrum env0 DenoiseState.new (List.replicate FRAME_SIZE 0))).1) := by
  have hen : frame_energy env0 DenoiseState.new (List.replicate FRAME_SIZE 0) < 1/25 := by
    unfold frame_energy
    rw [show DenoiseState.new = zstate 0 from rfl, hp_state_zero, hp_out_zero,
      frame_analysis_zero env0 0 (fun _ => rfl)]
    rw [Finset.sum_congr rfl (fun i _ => getD_replicate NB_BANDS i 0)]
    norm_num
  exact ⟨hen, c2_silence_branch env0 DenoiseState.new (List.replicate FRAME_SIZE 0) hen⟩

set_option maxRecDepth 40000 in
/-- C10: on a silent frame (band-energy sum below 0.04) `process_frame` returns
exactly 0 as the VAD probability: `vad_prob` keeps its initialisation and the RNN,
its only writer, is not invoked. -/
theorem c10_silent_vad_zero (env : Env) (st : DenoiseState) (input : List ℚ)
    (hsil : frame_energy env st input < 1/25) :
    (process_frame env st input).vad = 0 := by
  have hfo := feat_of_silent env st input hsil
  have hsilb : (feat_of env st input).silence = true := by rw [hfo]
  rw [process_frame_silent env st input hsilb]
  rfl

/-- Witness for C10 at the concrete silent call. -/
theorem c10_silent_vad_zero_witness :
    frame_energy env0 DenoiseState.new (List.replicate FRAME_SIZE 0) < 1/25 ∧
    (process_frame env0 DenoiseState.new (List.replicate FRAME_SIZE 0)).vad = 0 := by
  have hen : frame_energy env0 DenoiseState.new (List.replicate FRAME_SIZE 0) < 1/25 := by
    unfold frame_energy
    rw [show DenoiseState.new = zstate 0 from rfl, hp_state_zero, hp_out_zero,
      frame_analysis_zero env0 0 (fun _ => rfl)]
    rw [Finset.sum_congr rfl (fun i _ => getD_replicate NB_BANDS i 0)]
    norm_num
  exact ⟨hen, c10_silent_vad_zero env0 DenoiseState.new (List.replicate FRAME_SIZE 0) hen⟩

theorem feat_of_lastg (env : Env) (st : DenoiseState) (input : List ℚ) :
    (feat_of env st input).state.lastg = st.lastg := by
  unfold feat_of
  rw [feat_state_lastg]
  rfl

/-- C6: after every `process_frame` call the stored gain `lastg[i]` is at least
0.6 times its previous value: on a non-silent frame it is set to
`max(g[i], 0.6 * lastg[i])` with `g` the RNN output, and on a silent frame it is
left unchanged. -/
theorem c6_lastg_floor (env : Env) (st : DenoiseState) (input : List ℚ) (i : ℕ)
    (hi : i < NB_BANDS) (h0 : 0 ≤ st.lastg.getD i 0) :
    3/5 * st.lastg.getD i 0 ≤ (process_frame env st input).state.lastg.getD i 0 ∧
    ((feat_of env st input).silence = true →
      (process_frame env st input).state.lastg = st.lastg) ∧
    ((feat_of env st input).silence = false →
      (process_frame env st input).state.lastg.getD i 0
        = max ((rnn_gains env st input).getD i 0) (3/5 * st.lastg.getD i 0)) := by
  cases hb : (feat_of env st input).silence
  · rw [process_frame_nonsilent env st input hb]
    have hl : (process_frame_gain env (feat_of env st input)).state.lastg
        = (List.range NB_BANDS).map (fun j =>
            max ((rnn_gains env st input).getD j 0)
              (3/5 * (feat_of env st input).state.lastg.getD j 0)) := by
      simp only [process_frame_gain, rnn_gains]
    rw [feat_of_lastg] at hl
    refine ⟨?_, ?_, ?_⟩
    · rw [hl, getD_range_map_lt _ _ _ _ hi]
      exact le_max_right _ _
    · intro hcontra
      simp at hcontra
    · intro _
      rw [hl, getD_range_map_lt _ _ _ _ hi]
  · rw [process_frame_silent env st input hb]
    have hpass : (process_frame_pass env (feat_of env st input)).state.lastg
        = st.lastg := by
      simp only [process_frame_pass]
      show (feat_of env st input).state.lastg = st.lastg
      exact feat_of_lastg env st input
    refine ⟨?_, ?_, ?_⟩
    · rw [hpass]
      linarith
    · intro _
      exact hpass
    · intro hcontra
      simp at hcontra

set_option maxRecDepth 10000 in
/-- Witness for C6 at a concrete call (fresh state, zero frame, band 0). -/
theorem c6_lastg_floor_witness :
    (0 < NB_BANDS ∧ 0 ≤ DenoiseState.new.lastg.getD 0 0) ∧
    (3/5 * DenoiseState.new.lastg.getD 0 0
      ≤ (process_frame env0 DenoiseState.new
          (List.replicate FRAME_SIZE 0)).state.lastg.getD 0 0 ∧
    ((feat_of env0 DenoiseState.new (List.replicate FRAME_SIZE 0)).silence = true →
      (process_frame env0 DenoiseState.new (List.replicate FRAME_SIZE 0)).state.lastg
        = DenoiseState.new.lastg) ∧
    ((feat_of env0 DenoiseState.new (List.replicate FRAME_SIZE 0)).silence = false →
      (process_frame env0 DenoiseState.new
          (List.replicate FRAME_SIZE 0)).state.lastg.getD 0 0
        = max ((rnn_gains env0 DenoiseState.new (List.replicate FRAME_SIZE 0)).getD 0 0)
            (3/5 * DenoiseState.new.lastg.getD 0 0))) :=
  ⟨⟨by decide, by with_unfolding_all decide⟩,
   c6_lastg_floor env0 DenoiseState.new (List.replicate FRAME_SIZE 0) 0
     (by decide) (by with_unfolding_all decide)⟩

theorem rd_sum_telescope (x : List ℚ) (m n : ℕ) :
    (∑ j ∈ Finset.range n, x.getD (m + j) 0 * x.getD (m + j) 0)
      + x.getD (m + n) 0 * x.getD (m + n) 0
    = x.getD m 0 * x.getD m 0
      + ∑ j ∈ Finset.range n, x.getD (m + 1 + j) 0 * x.getD (m + 1 + j) 0 := by
  induction n with
  | zero => simp
  | succ k ih =>
    rw [Finset.sum_range_succ, Finset.sum_range_succ
      (fun j => x.getD (m + 1 + j) 0 * x.getD (m + 1 + j) 0)]
    have h1 : m + (k + 1) = m + 1 + k := by omega
    rw [h1]
    linarith [ih]

theorem rd_window_nonneg (x : List ℚ) (mp n k : ℕ) : 0 ≤ rd_window x mp n k :=
  Finset.sum_nonneg fun _ _ => mul_self_nonneg _

theorem rd_window_step (x : List ℚ) (mp n k : ℕ) (h : k + 1 ≤ mp) :
    rd_window x mp n (k + 1)
      = rd_window x mp n k
        + x.getD (mp - (k + 1)) 0 * x.getD (mp - (k + 1)) 0
        - x.getD (mp + n - (k + 1)) 0 * x.getD (mp + n - (k + 1)) 0 := by
  have hm : mp - k = mp - (k + 1) + 1 := by omega
  have hmn : mp + n - (k + 1) = mp - (k + 1) + n := by omega
  simp only [rd_window, hm, hmn]
  linarith [rd_sum_telescope x (mp - (k + 1)) n]

theorem rd_lookup_fold_char (x : List ℚ) (mp n : ℕ) (i : ℕ) (hi : i ≤ mp) :
    (List.range' 1 i).foldl (rd_lookup_step x mp n)
        ([rd_window x mp n 0], rd_window x mp n 0)
      = ((List.range (i + 1)).map (rd_window x mp n), rd_window x mp n i) := by
  induction i with
  | zero => simp [List.range', List.range_succ]
  | succ k ih =>
    rw [List.range'_concat, List.foldl_append, ih (by omega)]
    simp only [List.foldl_cons, List.foldl_nil]
    rw [show 1 + 1 * k = k + 1 from by omega]
    simp only [rd_lookup_step]
    have hyy : rd_window x mp n k
        + x.getD (mp - (k + 1)) 0 * x.getD (mp - (k + 1)) 0
        - x.getD (mp + n - (k + 1)) 0 * x.getD (mp + n - (k + 1)) 0
        = rd_window x mp n (k + 1) := (rd_window_step x mp n k hi).symm
    rw [hyy, max_eq_left (rd_window_nonneg x mp n (k + 1)), List.range_succ,
      List.map_append]
    simp [List.range_succ]

theorem rd_xx_eq (x : List ℚ) (mp n : ℕ) (h : mp + n ≤ x.length) :
    inner_prod (x.drop mp) (x.drop mp) n = rd_window x mp n 0 := by
  rw [inner_prod_eq_sum _ _ n (by rw [List.length_drop]; omega)
    (by rw [List.length_drop]; omega)]
  simp only [rd_window, Nat.sub_zero]
  refine Finset.sum_congr rfl fun j _ => ?_
  have hd : (x.drop mp).getD j 0 = x.getD (mp + j) 0 := by
    simp [List.getD_eq_getElem?_getD, List.getElem?_drop]
  rw [hd]

theorem rd_lookup_char (x : List ℚ) (mp n : ℕ) (h : mp + n ≤ x.length) :
    remove_doubling_lookup x mp n
      = (List.range (mp + 1)).map (rd_window x mp n) := by
  simp only [remove_doubling_lookup]
  rw [rd_xx_eq x mp n h, rd_lookup_fold_char x mp n mp le_rfl]

/-- C5: in `remove_doubling` the `yy_lookup` table starts with `yy_lookup[0] = xx`
(the energy of `x[max_period..max_period+n]`) and each later entry `yy_lookup[i]`,
`1 ≤ i ≤ max_period`, equals
`max(yy_lookup[i-1] + x[max_period-i]^2 - x[max_period+n-i]^2, 0)`: because the
running `yy` is a window energy and hence never negative, the clamp never loses
information and the clamped-previous recurrence of the spec agrees with the code's
unclamped running value. -/
theorem c5_yy_lookup (x : List ℚ) (mp n i : ℕ)
    (hlen : mp + n ≤ x.length) (h1 : 1 ≤ i) (h2 : i ≤ mp) :
    (remove_doubling_lookup x mp n).getD 0 0
        = inner_prod (x.drop mp) (x.drop mp) n ∧
    (remove_doubling_lookup x mp n).getD i 0
        = max ((remove_doubling_lookup x mp n).getD (i - 1) 0
            + x.getD (mp - i) 0 * x.getD (mp - i) 0
            - x.getD (mp + n - i) 0 * x.getD (mp + n - i) 0) 0 := by
  have hchar := rd_lookup_char x mp n hlen
  constructor
  · rw [hchar, getD_range_map_lt _ _ _ _ (by omega), rd_xx_eq x mp n hlen]
  · rw [hchar, getD_range_map_lt _ _ _ _ (by omega),
      getD_range_map_lt _ _ _ _ (by omega)]
    obtain ⟨k, rfl⟩ : ∃ k, i = k + 1 := ⟨i - 1, by omega⟩
    simp only [Nat.add_sub_cancel]
    rw [rd_window_step x mp n k (by omega)]
    rw [max_eq_left (by
      rw [← rd_window_step x mp n k (by omega)]
      exact rd_window_nonneg x mp n (k + 1))]

/-- Witness for C5 at `x = [1, 2, 3]`, `max_period = 2`, `n = 1`, `i = 1`. -/
theorem c5_yy_lookup_witness :
    (2 + 1 ≤ ([1, 2, 3] : List ℚ).length ∧ 1 ≤ 1 ∧ 1 ≤ 2) ∧
    ((remove_doubling_lookup ([1, 2, 3] : List ℚ) 2 1).getD 0 0
        = inner_prod (([1, 2, 3] : List ℚ).drop 2) (([1, 2, 3] : List ℚ).drop 2) 1 ∧
     (remove_doubling_lookup ([1, 2, 3] : List ℚ) 2 1).getD 1 0
        = max ((remove_doubling_lookup ([1, 2, 3] : List ℚ) 2 1).getD (1 - 1) 0
            + ([1, 2, 3] : List ℚ).getD (2 - 1) 0 * ([1, 2, 3] : List ℚ).getD (2 - 1) 0
            - ([1, 2, 3] : List ℚ).getD (2 + 1 - 1) 0
              * ([1, 2, 3] : List ℚ).getD (2 + 1 - 1) 0) 0) :=
  ⟨⟨by decide, by decide, by decide⟩,
   c5_yy_lookup ([1, 2, 3] : List ℚ) 2 1 1 (by decide) (by decide) (by decide)⟩

theorem fbp_den_pos (ys : List ℚ) (len i : ℕ) : 0 < fbp_den ys len i := by
  have h : 0 ≤ ∑ j ∈ Finset.range len, ys.getD (i + j) 0 * ys.getD (i + j) 0 :=
    Finset.sum_nonneg fun _ _ => mul_self_nonneg _
  unfold fbp_den
  linarith

theorem fbp_den_ge_one (ys : List ℚ) (len i : ℕ) : 1 ≤ fbp_den ys len i := by
  have h : 0 ≤ ∑ j ∈ Finset.range len, ys.getD (i + j) 0 * ys.getD (i + j) 0 :=
    Finset.sum_nonneg fun _ _ => mul_self_nonneg _
  unfold fbp_den
  linarith

theorem fbp_den_succ (ys : List ℚ) (len k : ℕ) :
    fbp_den ys len k + ys.getD (k + len) 0 * ys.getD (k + len) 0
      - ys.getD k 0 * ys.getD k 0 = fbp_den ys len (k + 1) := by
  simp only [fbp_den]
  linarith [rd_sum_telescope ys k len]

theorem fbp_score_lt_iff (xcorr ys : List ℚ) (len i j : ℕ) :
    fbp_score xcorr ys len i < fbp_score xcorr ys len j
      ↔ fbp_num xcorr i * fbp_den ys len j < fbp_num xcorr j * fbp_den ys len i := by
  unfold fbp_score
  rw [div_lt_div_iff (fbp_den_pos ys len i) (fbp_den_pos ys len j)]

theorem fbp_step_empty (xcorr ys : List ℚ) (len k : ℕ) (hc : 0 < xcorr.getD k 0) :
    find_best_pitch_step xcorr ys len ⟨-1, 0, 0, -1, 0, 1, fbp_den ys len k⟩ k
      = ⟨fbp_num xcorr k, fbp_den ys len k, k, -1, 0, 0, fbp_den ys len (k + 1)⟩ := by
  have hden := fbp_den_pos ys len k
  simp only [find_best_pitch_step]
  rw [if_pos hc]
  rw [if_pos (show (-1 : ℚ) * fbp_den ys len k
      < xcorr.getD k 0 * xcorr.getD k 0 * 0 from by nlinarith)]
  rw [if_pos (show (-1 : ℚ) * fbp_den ys len k
      < xcorr.getD k 0 * xcorr.getD k 0 * 0 from by nlinarith)]
  rw [show fbp_den ys len k + ys.getD (k + len) 0 * ys.getD (k + len) 0
      - ys.getD k 0 * ys.getD k 0 = fbp_den ys len (k + 1) from fbp_den_succ ys len k]
  rw [max_eq_left (fbp_den_ge_one ys len (k + 1))]
  rfl

theorem fbp_step_single_up (xcorr ys : List ℚ) (len k b : ℕ)
    (hc : 0 < xcorr.getD k 0)
    (hlt : fbp_score xcorr ys len b < fbp_score xcorr ys len k) :
    find_best_pitch_step xcorr ys len
        ⟨fbp_num xcorr b, fbp_den ys len b, b, -1, 0, 0, fbp_den ys len k⟩ k
      = ⟨fbp_num xcorr k, fbp_den ys len k, k,
         fbp_num xcorr b, fbp_den ys len b, b, fbp_den ys len (k + 1)⟩ := by
  have hden := fbp_den_pos ys len k
  rw [fbp_score_lt_iff] at hlt
  simp only [find_best_pitch_step]
  rw [if_pos hc]
  rw [if_pos (show (-1 : ℚ) * fbp_den ys len k
      < xcorr.getD k 0 * xcorr.getD k 0 * 0 from by nlinarith)]
  rw [if_pos (show fbp_num xcorr b * fbp_den ys len k
      < xcorr.getD k 0 * xcorr.getD k 0 * fbp_den ys len b from hlt)]
  rw [show fbp_den ys len k + ys.getD (k + len) 0 * ys.getD (k + len) 0
      - ys.getD k 0 * ys.getD k 0 = fbp_den ys len (k + 1) from fbp_den_succ ys len k]
  rw [max_eq_left (fbp_den_ge_one ys len (k + 1))]
  rfl

theorem fbp_step_single_second (xcorr ys : List ℚ) (len k b : ℕ)
    (hc : 0 < xcorr.getD k 0)
    (hlt : fbp_score xcorr ys len k < fbp_score xcorr ys len b) :
    find_best_pitch_step xcorr ys len
        ⟨fbp_num xcorr b, fbp_den ys len b, b, -1, 0, 0, fbp_den ys len k⟩ k
      = ⟨fbp_num xcorr b, fbp_den ys len b, b,
         fbp_num xcorr k, fbp_den ys len k, k, fbp_den ys len (k + 1)⟩ := by
  have hden := fbp_den_pos ys len k
  have hnlt := lt_asymm hlt
  rw [fbp_score_lt_iff] at hnlt
  simp only [find_best_pitch_step]
  rw [if_pos hc]
  rw [if_pos (show (-1 : ℚ) * fbp_den ys len k
      < xcorr.getD k 0 * xcorr.getD k 0 * 0 from by nlinarith)]
  rw [if_neg (show ¬ (fbp_num xcorr b * fbp_den ys len k
      < xcorr.getD k 0 * xcorr.getD k 0 * fbp_den ys len b) from hnlt)]
  rw [show fbp_den ys len k + ys.getD (k + len) 0 * ys.getD (k + len) 0
      - ys.getD k 0 * ys.getD k 0 = fbp_den ys len (k + 1) from fbp_den_succ ys len k]
  rw [max_eq_left (fbp_den_ge_one ys len (k + 1))]
  rfl

theorem fbp_step_skip (xcorr ys : List ℚ) (len k b s : ℕ)
    (hc : 0 < xcorr.getD k 0)
    (hks : fbp_score xcorr ys len k < fbp_score xcorr ys len s) :
    find_best_pitch_step xcorr ys len
        ⟨fbp_num xcorr b, fbp_den ys len b, b,
         fbp_num xcorr s, fbp_den ys len s, s, fbp_den ys len k⟩ k
      = ⟨fbp_num xcorr b, fbp_den ys len b, b,
         fbp_num xcorr s, fbp_den ys len s, s, fbp_den ys len (k + 1)⟩ := by
  have hnlt := lt_asymm hks
  rw [fbp_score_lt_iff] at hnlt
  simp only [find_best_pitch_step]
  rw [if_pos hc]
  rw [if_neg (show ¬ (fbp_num xcorr s * fbp_den ys len k
      < xcorr.getD k 0 * xcorr.getD k 0 * fbp_den ys len s) from hnlt)]
  rw [show fbp_den ys len k + ys.getD (k + len) 0 * ys.getD (k + len) 0
      - ys.getD k 0 * ys.getD k 0 = fbp_den ys len (k + 1) from fbp_den_succ ys len k]
  rw [max_eq_left (fbp_den_ge_one ys len (k + 1))]


theorem fbp_step_new_best (xcorr ys : List ℚ) (len k b s : ℕ)
    (hc : 0 < xcorr.getD k 0)
    (hks : fbp_score xcorr ys len s < fbp_score xcorr ys len k)
    (hkb : fbp_score xcorr ys len b < fbp_score xcorr ys len k) :
    find_best_pitch_step xcorr ys len
        ⟨fbp_num xcorr b, fbp_den ys len b, b,
         fbp_num xcorr s, fbp_den ys len s, s, fbp_den ys len k⟩ k
      = ⟨fbp_num xcorr k, fbp_den ys len k, k,
         fbp_num xcorr b, fbp_den ys len b, b, fbp_den ys len (k + 1)⟩ := by
  rw [fbp_score_lt_iff] at hks hkb
  simp only [find_best_pitch_step]
  rw [if_pos hc]
  rw [if_pos (show fbp_num xcorr s * fbp_den ys len k
      < xcorr.getD k 0 * xcorr.getD k 0 * fbp_den ys len s from hks)]
  rw [if_pos (show fbp_num xcorr b * fbp_den ys len k
      < xcorr.getD k 0 * xcorr.getD k 0 * fbp_den ys len b from hkb)]
  rw [show fbp_den ys len k + ys.getD (k + len) 0 * ys.getD (k + len) 0
      - ys.getD k 0 * ys.getD k 0 = fbp_den ys len (k + 1) from fbp_den_succ ys len k]
  rw [max_eq_left (fbp_den_ge_one ys len (k + 1))]
  rfl

theorem fbp_step_new_second (xcorr ys : List ℚ) (len k b s : ℕ)
    (hc : 0 < xcorr.getD k 0)
    (hks : fbp_score xcorr ys len s < fbp_score xcorr ys len k)
    (hkb : fbp_score xcorr ys len k < fbp_score xcorr ys len b) :
    find_best_pitch_step xcorr ys len
        ⟨fbp_num xcorr b, fbp_den ys len b, b,
         fbp_num xcorr s, fbp_den ys len s, s, fbp_den ys len k⟩ k
      = ⟨fbp_num xcorr b, fbp_den ys len b, b,
         fbp_num xcorr k, fbp_den ys len k, k, fbp_den ys len (k + 1)⟩ := by
  have hnlt := lt_asymm hkb
  rw [fbp_score_lt_iff] at hks hnlt
  simp only [find_best_pitch_step]
  rw [if_pos hc]
  rw [if_pos (show fbp_num xcorr s * fbp_den ys len k
      < xcorr.getD k 0 * xcorr.getD k 0 * fbp_den ys len s from hks)]
  rw [if_neg (show ¬ (fbp_num xcorr b * fbp_den ys len k
      < xcorr.getD k 0 * xcorr.getD k 0 * fbp_den ys len b) from hnlt)]
  rw [show fbp_den ys len k + ys.getD (k + len) 0 * ys.getD (k + len) 0
      - ys.getD k 0 * ys.getD k 0 = fbp_den ys len (k + 1) from fbp_den_succ ys len k]
  rw [max_eq_left (fbp_den_ge_one ys len (k + 1))]
  rfl


theorem fbp_step_neg (xcorr ys : List ℚ) (len k : ℕ) (st : FbpState)
    (hc : ¬ 0 < xcorr.getD k 0) (hy : st.y_sq_norm = fbp_den ys len k) :
    find_best_pitch_step xcorr ys len st k
      = { st with y_sq_norm := fbp_den ys len (k + 1) } := by
  simp only [find_best_pitch_step]
  rw [if_neg hc, hy]
  rw [show fbp_den ys len k + ys.getD (k + len) 0 * ys.getD (k + len) 0
      - ys.getD k 0 * ys.getD k 0 = fbp_den ys len (k + 1) from fbp_den_succ ys len k]
  rw [max_eq_left (fbp_den_ge_one ys len (k + 1))]

theorem fbp_pref_succ_pos (xcorr : List ℚ) (k : ℕ) (hc : 0 < xcorr.getD k 0) :
    fbp_pref xcorr (k + 1) = insert k (fbp_pref xcorr k) := by
  simp only [fbp_pref, Finset.range_succ, Finset.filter_insert, if_pos hc]

theorem fbp_pref_succ_neg (xcorr : List ℚ) (k : ℕ) (hc : ¬ 0 < xcorr.getD k 0) :
    fbp_pref xcorr (k + 1) = fbp_pref xcorr k := by
  simp only [fbp_pref, Finset.range_succ, Finset.filter_insert, if_neg hc]

theorem fbp_pref_mem (xcorr : List ℚ) (i j : ℕ) :
    j ∈ fbp_pref xcorr i ↔ j < i ∧ 0 < xcorr.getD j 0 := by
  simp [fbp_pref]

theorem mem_fbp_pos (xcorr : List ℚ) (k : ℕ) :
    k ∈ fbp_pos xcorr ↔ k < xcorr.length ∧ 0 < xcorr.getD k 0 := by
  simp [fbp_pos]

theorem fbp_pref_subset (xcorr : List ℚ) (i : ℕ) (hi : i ≤ xcorr.length) :
    fbp_pref xcorr i ⊆ fbp_pos xcorr :=
  Finset.filter_subset_filter _ (Finset.range_subset.2 hi)

theorem fbp_fold_inv (xcorr ys : List ℚ) (len : ℕ)
    (hinj : ∀ i ∈ fbp_pos xcorr, ∀ j ∈ fbp_pos xcorr,
      fbp_score xcorr ys len i = fbp_score xcorr ys len j → i = j)
    (i : ℕ) (hi : i ≤ xcorr.length) :
    fbp_inv xcorr ys len i
      ((List.range i).foldl (find_best_pitch_step xcorr ys len)
        ⟨-1, 0, 0, -1, 0, 1, fbp_den ys len 0⟩) := by
  induction i with
  | zero =>
    refine Or.inl ⟨?_, rfl⟩
    simp [fbp_pref]
  | succ k ih =>
    have hk : k ≤ xcorr.length := by omega
    have ihk := ih hk
    rw [List.range_succ, List.foldl_append, List.foldl_cons, List.foldl_nil]
    by_cases hc : 0 < xcorr.getD k 0
    · have hkpos : k ∈ fbp_pos xcorr := (mem_fbp_pos xcorr k).2 ⟨by omega, hc⟩
      have hpre := fbp_pref_succ_pos xcorr k hc
      rcases ihk with ⟨hemp, hrec⟩ | ⟨b, hb, hrec⟩ |
        ⟨b, s, hbm, hsm, hbs, hbmax, hsmax, hrec⟩
      · rw [hrec, fbp_step_empty xcorr ys len k hc]
        refine Or.inr (Or.inl ⟨k, ?_, rfl⟩)
        rw [hpre, hemp]
        rfl
      · have hbmem : b ∈ fbp_pref xcorr k := by
          rw [hb]; exact Finset.mem_singleton_self b
        have hbpos : b ∈ fbp_pos xcorr := fbp_pref_subset xcorr k hk hbmem
        have hbk : b ≠ k := by
          have := (fbp_pref_mem xcorr k b).1 hbmem
          omega
        have hne : fbp_score xcorr ys len b ≠ fbp_score xcorr ys len k :=
          fun h => hbk (hinj b hbpos k hkpos h)
        rcases hne.lt_or_lt with hlt | hlt
        · rw [hrec, fbp_step_single_up xcorr ys len k b hc hlt]
          refine Or.inr (Or.inr ⟨k, b, ?_, ?_, hbk.symm, ?_, ?_, rfl⟩)
          · rw [hpre]; exact Finset.mem_insert_self k _
          · rw [hpre]; exact Finset.mem_insert_of_mem hbmem
          · intro j hj hjk
            rw [hpre] at hj
            rcases Finset.mem_insert.1 hj with h | h
            · exact absurd h hjk
            · rw [hb, Finset.mem_singleton] at h
              rw [h]; exact hlt
          · intro j hj hjk hjb
            rw [hpre] at hj
            rcases Finset.mem_insert.1 hj with h | h
            · exact absurd h hjk
            · rw [hb, Finset.mem_singleton] at h
              exact absurd h hjb
        · rw [hrec, fbp_step_single_second xcorr ys len k b hc hlt]
          refine Or.inr (Or.inr ⟨b, k, ?_, ?_, hbk, ?_, ?_, rfl⟩)
          · rw [hpre]; exact Finset.mem_insert_of_mem hbmem
          · rw [hpre]; exact Finset.mem_insert_self k _
          · intro j hj hjb
            rw [hpre] at hj
            rcases Finset.mem_insert.1 hj with h | h
            · rw [h]; exact hlt
            · rw [hb, Finset.mem_singleton] at h
              exact absurd h hjb
          · intro j hj hjb hjk
            rw [hpre] at hj
            rcases Finset.mem_insert.1 hj with h | h
            · exact absurd h hjk
            · rw [hb, Finset.mem_singleton] at h
              exact absurd h hjb
      · have hbpos : b ∈ fbp_pos xcorr := fbp_pref_subset xcorr k hk hbm
        have hspos : s ∈ fbp_pos xcorr := fbp_pref_subset xcorr k hk hsm
        have hbk : b ≠ k := by
          have := (fbp_pref_mem xcorr k b).1 hbm
          omega
        have hsk : s ≠ k := by
          have := (fbp_pref_mem xcorr k s).1 hsm
          omega
        have hnbk : fbp_score xcorr ys len b ≠ fbp_score xcorr ys len k :=
          fun h => hbk (hinj b hbpos k hkpos h)
        have hnsk : fbp_score xcorr ys len s ≠ fbp_score xcorr ys len k :=
          fun h => hsk (hinj s hspos k hkpos h)
        have hsb : fbp_score xcorr ys len s < fbp_score xcorr ys len b :=
          hbmax s hsm (fun h => hbs h.symm)
        rcases hnsk.lt_or_lt with hsklt | hsklt
        · rcases hnbk.lt_or_lt with hbklt | hbklt
          · rw [hrec, fbp_step_new_best xcorr ys len k b s hc hsklt hbklt]
            refine Or.inr (Or.inr ⟨k, b, ?_, ?_, fun h => hbk h.symm, ?_, ?_, rfl⟩)
            · rw [hpre]; exact Finset.mem_insert_self k _
            · rw [hpre]; exact Finset.mem_insert_of_mem hbm
            · intro j hj hjk
              rw [hpre] at hj
              rcases Finset.mem_insert.1 hj with h | h
              · exact absurd h hjk
              · by_cases hjb : j = b
                · rw [hjb]; exact hbklt
                · exact lt_trans (hbmax j h hjb) hbklt
            · intro j hj hjk hjb
              rw [hpre] at hj
              rcases Finset.mem_insert.1 hj with h | h
              · exact absurd h hjk
              · exact hbmax j h hjb
          · rw [hrec, fbp_step_new_second xcorr ys len k b s hc hsklt hbklt]
            refine Or.inr (Or.inr ⟨b, k, ?_, ?_, hbk, ?_, ?_, rfl⟩)
            · rw [hpre]; exact Finset.mem_insert_of_mem hbm
            · rw [hpre]; exact Finset.mem_insert_self k _
            · intro j hj hjb
              rw [hpre] at hj
              rcases Finset.mem_insert.1 hj with h | h
              · rw [h]; exact hbklt
              · exact hbmax j h hjb
            · intro j hj hjb hjk
              rw [hpre] at hj
              rcases Finset.mem_insert.1 hj with h | h
              · exact absurd h hjk
              · by_cases hjs : j = s
                · rw [hjs]; exact hsklt
                · exact lt_trans (hsmax j h hjb hjs) hsklt
        · rw [hrec, fbp_step_skip xcorr ys len k b s hc hsklt]
          refine Or.inr (Or.inr ⟨b, s, ?_, ?_, hbs, ?_, ?_, rfl⟩)
          · rw [hpre]; exact Finset.mem_insert_of_mem hbm
          · rw [hpre]; exact Finset.mem_insert_of_mem hsm
          · intro j hj hjb
            rw [hpre] at hj
            rcases Finset.mem_insert.1 hj with h | h
            · rw [h]; exact lt_trans hsklt hsb
            · exact hbmax j h hjb
          · intro j hj hjb hjs
            rw [hpre] at hj
            rcases Finset.mem_insert.1 hj with h | h
            · rw [h]; exact hsklt
            · exact hsmax j h hjb hjs
    · have hpre := fbp_pref_succ_neg xcorr k hc
      rcases ihk with ⟨hemp, hrec⟩ | ⟨b, hb, hrec⟩ |
        ⟨b, s, hbm, hsm, hbs, hbmax, hsmax, hrec⟩
      · rw [hrec, fbp_step_neg xcorr ys len k _ hc rfl]
        exact Or.inl ⟨by rw [hpre]; exact hemp, rfl⟩
      · rw [hrec, fbp_step_neg xcorr ys len k _ hc rfl]
        exact Or.inr (Or.inl ⟨b, by rw [hpre]; exact hb, rfl⟩)
      · rw [hrec, fbp_step_neg xcorr ys len k _ hc rfl]
        refine Or.inr (Or.inr ⟨b, s, ?_, ?_, hbs, ?_, ?_, rfl⟩)
        · rw [hpre]; exact hbm
        · rw [hpre]; exact hsm
        · intro j hj hjb
          rw [hpre] at hj
          exact hbmax j hj hjb
        · intro j hj hjb hjs
          rw [hpre] at hj
          exact hsmax j hj hjb hjs

theorem take_map_sq_sum (ys : List ℚ) (len : ℕ) :
    ((ys.take len).map fun y => y * y).sum
      = ∑ j ∈ Finset.range len, ys.getD j 0 * ys.getD j 0 := by
  induction len generalizing ys with
  | zero => simp
  | succ k ih =>
    cases ys with
    | nil => simp [List.getD_nil]
    | cons a t =>
      rw [List.take_succ_cons, List.map_cons, List.sum_cons, ih t,
        Finset.sum_range_succ']
      simp only [List.getD_cons_succ, List.getD_cons_zero]
      ring

theorem fbp_init_den (ys : List ℚ) (len : ℕ) :
    (1 : ℚ) + ((ys.take len).map fun y => y * y).sum = fbp_den ys len 0 := by
  rw [take_map_sq_sum]
  simp [fbp_den]

/-- C4: `find_best_pitch` returns the index with the largest, and the index with
the second-largest, value of `xcorr[i]^2 / (1 + Σ ys[i..i+len)^2)` among indices
with `xcorr[i] > 0` (assuming at least two such indices and no score ties): the
denominator is `1 +` the windowed energy, not `max(1, Σ)` as the claim words it,
because `y_sq_norm` starts at `1 + Σ` and its clamp to 1 never fires in exact
arithmetic. -/
theorem c4_find_best_pitch (xcorr ys : List ℚ) (len : ℕ)
    (_hlen : xcorr.length + len ≤ ys.length)
    (hinj : ∀ i ∈ fbp_pos xcorr, ∀ j ∈ fbp_pos xcorr,
      fbp_score xcorr ys len i = fbp_score xcorr ys len j → i = j)
    (hcard : 2 ≤ (fbp_pos xcorr).card) :
    (find_best_pitch xcorr ys len).1 ∈ fbp_pos xcorr ∧
    (find_best_pitch xcorr ys len).2 ∈ fbp_pos xcorr ∧
    (find_best_pitch xcorr ys len).1 ≠ (find_best_pitch xcorr ys len).2 ∧
    (∀ j ∈ fbp_pos xcorr, j ≠ (find_best_pitch xcorr ys len).1 →
      fbp_score xcorr ys len j
        < fbp_score xcorr ys len (find_best_pitch xcorr ys len).1) ∧
    (∀ j ∈ fbp_pos xcorr, j ≠ (find_best_pitch xcorr ys len).1 →
      j ≠ (find_best_pitch xcorr ys len).2 →
      fbp_score xcorr ys len j
        < fbp_score xcorr ys len (find_best_pitch xcorr ys len).2) := by
  have hfull : fbp_pref xcorr xcorr.length = fbp_pos xcorr := rfl
  have hinv := fbp_fold_inv xcorr ys len hinj xcorr.length le_rfl
  rcases hinv with ⟨hemp, hrec⟩ | ⟨b, hb, hrec⟩ |
    ⟨b, s, hbm, hsm, hbs, hbmax, hsmax, hrec⟩
  · rw [hfull] at hemp
    rw [hemp] at hcard
    simp at hcard
  · rw [hfull] at hb
    rw [hb] at hcard
    simp at hcard
  · rw [hfull] at hbm hsm hbmax hsmax
    have h1 : (find_best_pitch xcorr ys len).1 = b := by
      simp only [find_best_pitch]
      rw [fbp_init_den, hrec]
    have h2 : (find_best_pitch xcorr ys len).2 = s := by
      simp only [find_best_pitch]
      rw [fbp_init_den, hrec]
    rw [h1, h2]
    exact ⟨hbm, hsm, hbs, hbmax, hsmax⟩

set_option maxRecDepth 4000 in
/-- Counterexample to C4 as worded: with `xcorr = [2, 12/5]`, `ys = [0, 1, 0]`,
`len = 1`, both indices are considered and index 1 attains the strictly larger
value of the claimed score `xcorr[i]^2 / max(1, Σ ys[i..i+len)^2)`, yet
`find_best_pitch` returns best index 0 (the code divides by `1 + Σ`, under which
index 0 wins). -/
theorem c4_counterexample :
    find_best_pitch [2, 12/5] [0, 1, 0] 1 = (0, 1) ∧
    fbp_score_claimed [2, 12/5] [0, 1, 0] 1 0
      < fbp_score_claimed [2, 12/5] [0, 1, 0] 1 1 ∧
    (0 : ℚ) < ([2, 12/5] : List ℚ).getD 0 0 ∧
    (0 : ℚ) < ([2, 12/5] : List ℚ).getD 1 0 ∧
    ([2, 12/5] : List ℚ).length + 1 ≤ ([0, 1, 0] : List ℚ).length := by
  with_unfolding_all decide

set_option maxRecDepth 4000 in
/-- Witness for C4 at `xcorr = [1, 2]`, `ys = [0, 0, 0]`, `len = 1`. -/
theorem c4_find_best_pitch_witness :
    (([1, 2] : List ℚ).length + 1 ≤ ([0, 0, 0] : List ℚ).length ∧
     (∀ i ∈ fbp_pos [1, 2], ∀ j ∈ fbp_pos [1, 2],
        fbp_score [1, 2] [0, 0, 0] 1 i = fbp_score [1, 2] [0, 0, 0] 1 j → i = j) ∧
     2 ≤ (fbp_pos ([1, 2] : List ℚ)).card) ∧
    ((find_best_pitch [1, 2] [0, 0, 0] 1).1 ∈ fbp_pos [1, 2] ∧
     (find_best_pitch [1, 2] [0, 0, 0] 1).2 ∈ fbp_pos [1, 2] ∧
     (find_best_pitch [1, 2] [0, 0, 0] 1).1 ≠ (find_best_pitch [1, 2] [0, 0, 0] 1).2 ∧
     (∀ j ∈ fbp_pos [1, 2], j ≠ (find_best_pitch [1, 2] [0, 0, 0] 1).1 →
       fbp_score [1, 2] [0, 0, 0] 1 j
         < fbp_score [1, 2] [0, 0, 0] 1 (find_best_pitch [1, 2] [0, 0, 0] 1).1) ∧
     (∀ j ∈ fbp_pos [1, 2], j ≠ (find_best_pitch [1, 2] [0, 0, 0] 1).1 →
       j ≠ (find_best_pitch [1, 2] [0, 0, 0] 1).2 →
       fbp_score [1, 2] [0, 0, 0] 1 j
         < fbp_score [1, 2] [0, 0, 0] 1 (find_best_pitch [1, 2] [0, 0, 0] 1).2)) :=
  ⟨⟨by decide, by with_unfolding_all decide, by with_unfolding_all decide⟩,
   c4_find_best_pitch [1, 2] [0, 0, 0] 1 (by decide) (by with_unfolding_all decide)
     (by with_unfolding_all decide)⟩


theorem getD_map_mul (c : ℚ) (l : List ℚ) (i : ℕ) :
    (l.map fun a => c * a).getD i 0 = c * l.getD i 0 := by
  simp only [List.getD_eq_getElem?_getD, List.getElem?_map]
  cases l[i]? <;> simp

theorem getD_replicate_mul (c : ℚ) (n i : ℕ) :
    (List.replicate n c).getD i 0 = c * (List.replicate n (1 : ℚ)).getD i 0 := by
  have h : List.replicate n c = (List.replicate n (1 : ℚ)).map fun a => c * a := by
    rw [List.map_replicate, mul_one]
  rw [h, getD_map_mul]

theorem interp_band_gain_hom (γ : ℚ) :
    interp_band_gain (List.replicate NB_BANDS γ)
      = (interp_band_gain (List.replicate NB_BANDS 1)).map fun a => γ * a := by
  unfold interp_band_gain
  have hinit : ((List.replicate FREQ_SIZE (0 : ℚ)).map fun a => γ * a)
      = List.replicate FREQ_SIZE (0 : ℚ) := by
    rw [List.map_replicate, mul_zero]
  conv_lhs => rw [← hinit]
  refine List.foldl_hom (fun (l : List ℚ) => l.map fun a => γ * a) _ _ _ _ ?_
  intro out i
  refine List.foldl_hom (fun (l : List ℚ) => l.map fun a => γ * a) _ _ _ _ ?_
  intro acc j
  simp only [List.map_set]
  congr 1
  rw [getD_replicate_mul γ NB_BANDS i, getD_replicate_mul γ NB_BANDS (i + 1)]
  ring

theorem to_spec_getD_mul (γ : ℚ) (l : List ℚ) (i : ℕ) :
    (to_spec (l.map fun a => γ * a)).getD i (0, 0) = (γ * l.getD i 0, 0) := by
  rw [to_spec_getD, getD_map_mul]

theorem cbc_set2_hom (γ : ℚ) (acc : List ℚ) (i : ℕ) (frac corr : ℚ) :
    ((acc.map fun a => γ * γ * a).set i
        ((acc.map fun a => γ * γ * a).getD i 0 + (1 - frac) * (γ * γ * corr))).set (i + 1)
      ((((acc.map fun a => γ * γ * a).set i
          ((acc.map fun a => γ * γ * a).getD i 0 + (1 - frac) * (γ * γ * corr))).getD
            (i + 1) 0)
        + frac * (γ * γ * corr))
    = ((acc.set i (acc.getD i 0 + (1 - frac) * corr)).set (i + 1)
        ((acc.set i (acc.getD i 0 + (1 - frac) * corr)).getD (i + 1) 0 + frac * corr)).map
        fun a => γ * γ * a := by
  have hv : (acc.map fun a => γ * γ * a).getD i 0 + (1 - frac) * (γ * γ * corr)
      = γ * γ * (acc.getD i 0 + (1 - frac) * corr) := by
    rw [getD_map_mul]; ring
  rw [hv, ← List.map_set]
  have hw : (((acc.set i (acc.getD i 0 + (1 - frac) * corr)).map
        fun a => γ * γ * a).getD (i + 1) 0) + frac * (γ * γ * corr)
      = γ * γ * ((acc.set i (acc.getD i 0 + (1 - frac) * corr)).getD (i + 1) 0
          + frac * corr) := by
    rw [getD_map_mul]; ring
  rw [hw, ← List.map_set]

theorem cbc_edges_hom (γ : ℚ) (out : List ℚ) :
    ((out.map fun a => γ * γ * a).set 0
        ((out.map fun a => γ * γ * a).getD 0 0 * 2)).set (NB_BANDS - 1)
      ((((out.map fun a => γ * γ * a).set 0
          ((out.map fun a => γ * γ * a).getD 0 0 * 2)).getD (NB_BANDS - 1) 0) * 2)
    = ((out.set 0 (out.getD 0 0 * 2)).set (NB_BANDS - 1)
        ((out.set 0 (out.getD 0 0 * 2)).getD (NB_BANDS - 1) 0 * 2)).map
        fun a => γ * γ * a := by
  have hv : (out.map fun a => γ * γ * a).getD 0 0 * 2 = γ * γ * (out.getD 0 0 * 2) := by
    rw [getD_map_mul]; ring
  rw [hv, ← List.map_set]
  have hw : (((out.set 0 (out.getD 0 0 * 2)).map fun a => γ * γ * a).getD
        (NB_BANDS - 1) 0) * 2
      = γ * γ * ((out.set 0 (out.getD 0 0 * 2)).getD (NB_BANDS - 1) 0 * 2) := by
    rw [getD_map_mul]; ring
  rw [hw, ← List.map_set]

theorem compute_band_corr_hom (γ : ℚ) (l : List ℚ) :
    compute_band_corr (to_spec (l.map fun a => γ * a)) (to_spec (l.map fun a => γ * a))
      = (compute_band_corr (to_spec l) (to_spec l)).map fun a => γ * γ * a := by
  unfold compute_band_corr
  have hinit : ((List.replicate NB_BANDS (0 : ℚ)).map fun a => γ * γ * a)
      = List.replicate NB_BANDS (0 : ℚ) := by
    rw [List.map_replicate, mul_zero]
  conv_lhs => rw [← hinit]
  have hfold := List.foldl_hom (fun (o : List ℚ) => o.map fun a => γ * γ * a)
    (fun (out : List ℚ) (i : ℕ) =>
      (List.range ((EBAND_5MS.getD (i + 1) 0 - EBAND_5MS.getD i 0) <<< FRAME_SIZE_SHIFT)).foldl
        (fun (out : List ℚ) (j : ℕ) =>
          let frac := (j : ℚ)
            / (((EBAND_5MS.getD (i + 1) 0 - EBAND_5MS.getD i 0) <<< FRAME_SIZE_SHIFT : ℕ) : ℚ)
          let idx := (EBAND_5MS.getD i 0 <<< FRAME_SIZE_SHIFT) + j
          let xi := (to_spec l).getD idx (0, 0)
          let pv := (to_spec l).getD idx (0, 0)
          let corr := xi.1 * pv.1 + xi.2 * pv.2
          let out1 := out.set i (out.getD i 0 + (1 - frac) * corr)
          out1.set (i + 1) (out1.getD (i + 1) 0 + frac * corr)) out)
    (fun (out : List ℚ) (i : ℕ) =>
      (List.range ((EBAND_5MS.getD (i + 1) 0 - EBAND_5MS.getD i 0) <<< FRAME_SIZE_SHIFT)).foldl
        (fun (out : List ℚ) (j : ℕ) =>
          let frac := (j : ℚ)
            / (((EBAND_5MS.getD (i + 1) 0 - EBAND_5MS.getD i 0) <<< FRAME_SIZE_SHIFT : ℕ) : ℚ)
          let idx := (EBAND_5MS.getD i 0 <<< FRAME_SIZE_SHIFT) + j
          let xi := (to_spec (l.map fun a => γ * a)).getD idx (0, 0)
          let pv := (to_spec (l.map fun a => γ * a)).getD idx (0, 0)
          let corr := xi.1 * pv.1 + xi.2 * pv.2
          let out1 := out.set i (out.getD i 0 + (1 - frac) * corr)
          out1.set (i + 1) (out1.getD (i + 1) 0 + frac * corr)) out)
    (List.range (NB_BANDS - 1)) (List.replicate NB_BANDS (0 : ℚ)) (by
      intro out i
      refine List.foldl_hom (fun (o : List ℚ) => o.map fun a => γ * γ * a) _ _ _ _ ?_
      intro acc j
      simp only [to_spec_getD_mul]
      simp only [to_spec_getD]
      rw [show (γ * l.getD ((EBAND_5MS.getD i 0 <<< FRAME_SIZE_SHIFT) + j) 0) *
            (γ * l.getD ((EBAND_5MS.getD i 0 <<< FRAME_SIZE_SHIFT) + j) 0) + 0 * 0
          = γ * γ * (l.getD ((EBAND_5MS.getD i 0 <<< FRAME_SIZE_SHIFT) + j) 0 *
              l.getD ((EBAND_5MS.getD i 0 <<< FRAME_SIZE_SHIFT) + j) 0 + 0 * 0) from by
        ring]
      exact cbc_set2_hom γ acc i _ _)
  rw [hfold]
  generalize (List.range (NB_BANDS - 1)).foldl _ (List.replicate NB_BANDS (0 : ℚ)) = out
  exact cbc_edges_hom γ out

/-- C8: on a band-constant vector `c = replicate 22 γ`, correlating the
interpolated per-bin gains with themselves does not reproduce `c`: it yields
`γ^2` times the fixed per-band weights `band_weights` (half-sums of adjacent band
sizes, with the edge bands doubled), e.g. `4 γ^2` instead of `γ` on band 1. -/
theorem c8_band_corr_scaled (γ : ℚ) :
    compute_band_corr (to_spec (interp_band_gain (List.replicate NB_BANDS γ)))
        (to_spec (interp_band_gain (List.replicate NB_BANDS γ)))
      = band_weights.map fun w => γ * γ * w := by
  rw [interp_band_gain_hom γ, compute_band_corr_hom γ, band_weights_eval]

set_option maxRecDepth 10000 in
/-- Counterexample to C8 as worded: on the all-ones band vector, band 1 (not an
edge band) of `compute_band_corr (interp c) (interp c)` is 4, not 1, a deviation
far beyond 1e-5. -/
theorem c8_counterexample :
    (compute_band_corr (to_spec (interp_band_gain (List.replicate NB_BANDS 1)))
        (to_spec (interp_band_gain (List.replicate NB_BANDS 1)))).getD 1 0 = 4 ∧
    (List.replicate NB_BANDS (1 : ℚ)).getD 1 0 = 1 ∧
    (1 : ℚ) / 100000 < |(4 : ℚ) - 1| := by
  refine ⟨?_, by with_unfolding_all decide, by norm_num⟩
  rw [band_weights_eval]
  with_unfolding_all decide


theorem biquad_checked_none_iff (b0 b1 a0 a1 : ℚ) :
    ∀ (xs ybuf : List ℚ) (m0 m1 : ℚ),
      biquad_checked b0 b1 a0 a1 m0 m1 ybuf xs = none ↔ ybuf.length < xs.length
  | [], ybuf, m0, m1 => by simp [biquad_checked]
  | x :: xs, [], m0, m1 => by simp [biquad_checked]
  | x :: xs, y :: ys, m0, m1 => by
    have ih := biquad_checked_none_iff b0 b1 a0 a1 xs ys
      (m1 + (b0 * x - a0 * (x + m0))) (b1 * x - a1 * (x + m0))
    simp only [biquad_checked]
    rcases hrec : biquad_checked b0 b1 a0 a1 (m1 + (b0 * x - a0 * (x + m0)))
        (b1 * x - a1 * (x + m0)) ys xs with _ | ⟨rest, mm⟩
    · rw [hrec] at ih
      simp only [List.length_cons]
      constructor
      · intro _
        have h := ih.1 rfl
        omega
      · intro _
        trivial
    · rw [hrec] at ih
      simp only [List.length_cons]
      constructor
      · intro h
        cases h
      · intro h
        exfalso
        have h2 : ys.length < xs.length := by omega
        have h3 := ih.2 h2
        cases h3

theorem write_into_none_iff :
    ∀ (vals buf : List ℚ), write_into buf vals = none ↔ buf.length < vals.length
  | [], buf => by simp [write_into]
  | v :: vs, [] => by simp [write_into]
  | v :: vs, b :: bs => by
    have ih := write_into_none_iff vs bs
    simp only [write_into, List.length_cons]
    rcases hrec : write_into bs vs with _ | r
    · rw [hrec] at ih
      simp only [Option.map_none']
      constructor
      · intro _
        have h := ih.1 rfl
        omega
      · intro _
        trivial
    · rw [hrec] at ih
      simp only [Option.map_some']
      constructor
      · intro h
        cases h
      · intro h
        exfalso
        have h2 : bs.length < vs.length := by omega
        have h3 := ih.2 h2
        cases h3

theorem frame_synthesis_checked_none_iff (env : Env) (mem out : List ℚ) (y : List Cq) :
    frame_synthesis_checked env mem out y = none ↔ out.length < FRAME_SIZE := by
  simp only [frame_synthesis_checked]
  split
  next hw =>
    constructor
    · intro _
      have h := (write_into_none_iff _ out).1 hw
      simpa using h
    · intro _
      trivial
  next o2 hw =>
    constructor
    · intro h
      cases h
    · intro h
      exfalso
      have h3 := (write_into_none_iff ((List.range FRAME_SIZE).map fun i =>
          (apply_window env (inverse_transform env y)).getD i 0 + mem.getD i 0) out).2
        (by simpa using h)
      rw [h3] at hw
      cases hw

theorem biquad_checked_some_length (b0 b1 a0 a1 m0 m1 : ℚ) (ybuf xs : List ℚ)
    (p : List ℚ × ℚ × ℚ) (hbi : biquad_checked b0 b1 a0 a1 m0 m1 ybuf xs = some p) :
    xs.length ≤ ybuf.length := by
  by_contra h
  rw [(biquad_checked_none_iff b0 b1 a0 a1 xs ybuf m0 m1).2 (by omega)] at hbi
  cases hbi

theorem fsc_some_length (env : Env) (mem out : List ℚ) (y : List Cq)
    (s : List ℚ × List ℚ) (hf : frame_synthesis_checked env mem out y = some s) :
    FRAME_SIZE ≤ out.length := by
  by_contra hlt
  rw [(frame_synthesis_checked_none_iff env mem out y).2 (by omega)] at hf
  cases hf

theorem pfc_none_iff (env : Env) (st : DenoiseState) (out input : List ℚ) :
    process_frame_checked env st out input = none
      ↔ FRAME_SIZE < input.length ∨ out.length < FRAME_SIZE := by
  simp only [process_frame_checked, Bool.cond_eq_ite]
  split
  next hbi =>
    constructor
    · intro _
      left
      have h := (biquad_checked_none_iff _ _ _ _ input (List.replicate FRAME_SIZE 0)
        st.mem_hp_x.1 st.mem_hp_x.2).1 hbi
      simpa using h
    · intro _
      trivial
  next x_time m0 m1 hbi =>
    have hin : ¬ FRAME_SIZE < input.length := by
      have h := biquad_checked_some_length _ _ _ _ _ _ _ input _ hbi
      simp at h
      omega
    split
    · split
      next hf =>
        constructor
        · intro _
          exact Or.inr ((frame_synthesis_checked_none_iff env _ out _).1 hf)
        · intro _
          trivial
      next s hf =>
        constructor
        · intro h
          cases h
        · intro h
          exfalso
          rcases h with h1 | h2
          · exact hin h1
          · have h4 := fsc_some_length env _ out _ s hf
            omega
    · split
      next hf =>
        constructor
        · intro _
          exact Or.inr ((frame_synthesis_checked_none_iff env _ out _).1 hf)
        · intro _
          trivial
      next s hf =>
        constructor
        · intro h
          cases h
        · intro h
          exfalso
          rcases h with h1 | h2
          · exact hin h1
          · have h4 := fsc_some_length env _ out _ s hf
            omega

/-- C9: the bounds-checked model of `process_frame` aborts exactly when the input
slice is longer than 480 samples (the biquad loop then writes past the
FRAME_SIZE-sized frame buffer) or the output slice is shorter than 480 samples
(the synthesis loop then writes past its end); a short input or a long output is
NOT detected -- the spec's blanket "differs from 480" is wrong for those. -/
theorem c9_slice_length_panics (env : Env) (st : DenoiseState) (out input : List ℚ) :
    process_frame_checked env st out input = none
      ↔ FRAME_SIZE < input.length ∨ out.length < FRAME_SIZE :=
  pfc_none_iff env st out input

set_option maxRecDepth 10000 in
/-- Counterexample to C9 as worded: a 479-sample input (length differing from 480)
hits no bounds assertion -- the biquad loop writes only the supplied samples into
the zero-initialised frame buffer and the call returns normally. -/
theorem c9_counterexample :
    (process_frame_checked env0 DenoiseState.new (List.replicate FRAME_SIZE 0)
        (List.replicate 479 0)).isSome = true ∧
    (List.replicate 479 (0 : ℚ)).length ≠ FRAME_SIZE := by
  constructor
  · rw [Option.isSome_iff_ne_none]
    intro heq
    rcases (pfc_none_iff env0 DenoiseState.new (List.replicate FRAME_SIZE 0)
        (List.replicate 479 0)).1 heq with h1 | h2
    · exact absurd h1 (by decide)
    · exact absurd h2 (by decide)
  · decide


theorem conj_stdAddChar {N : ℕ} [NeZero N] (x : ZMod N) :
    (starRingEnd ℂ) (ZMod.stdAddChar x) = ZMod.stdAddChar (-x) := by
  rw [ZMod.stdAddChar_apply, ZMod.stdAddChar_apply, AddChar.map_neg_eq_inv,
    Circle.coe_inv_eq_conj]

theorem dft_real_conj {N : ℕ} [NeZero N] (f : ZMod N → ℝ) (j : ZMod N) :
    (starRingEnd ℂ) (ZMod.dft (fun m => (f m : ℂ)) (-j))
      = ZMod.dft (fun m => (f m : ℂ)) j := by
  rw [ZMod.dft_apply, ZMod.dft_apply, map_sum]
  refine Finset.sum_congr rfl fun m _ => ?_
  rw [smul_eq_mul, smul_eq_mul, map_mul, Complex.conj_ofReal, conj_stdAddChar]
  congr 2
  ring

theorem herm_ext_forward (M : ℕ) [NeZero (2 * M)] (b : Fin (2 * M) → ℝ)
    (j : ZMod (2 * M)) :
    herm_ext_gen M (forward_transform_gen M b) j
      = ((2 * M : ℕ) : ℂ)⁻¹
        * ZMod.dft (fun m : ZMod (2 * M) => ((b ⟨m.val, m.val_lt⟩ : ℝ) : ℂ)) j := by
  unfold herm_ext_gen forward_transform_gen
  split
  next h =>
    rw [Fin.val_mk, ZMod.natCast_rightInverse j]
  next h =>
    rw [map_mul, map_inv₀, Complex.conj_natCast, Fin.val_mk]
    have hm : (((2 * M - j.val : ℕ)) : ZMod (2 * M)) = -j := by
      have hsum : ((2 * M - j.val : ℕ) : ZMod (2 * M)) + ((j.val : ℕ) : ZMod (2 * M)) = 0 := by
        rw [← Nat.cast_add,
          show 2 * M - j.val + j.val = 2 * M from by have := j.val_lt; omega]
        exact ZMod.natCast_self (2 * M)
      rw [ZMod.natCast_rightInverse j] at hsum
      exact eq_neg_of_add_eq_zero_left hsum
    rw [hm, dft_real_conj (fun m => b ⟨m.val, m.val_lt⟩) j]

theorem fft_round_trip_gen (M : ℕ) [NeZero (2 * M)] (b : Fin (2 * M) → ℝ)
    (n : Fin (2 * M)) :
    inverse_transform_gen M (forward_transform_gen M b) n = b n := by
  unfold inverse_transform_gen
  rw [Finset.sum_congr rfl (fun j _ => by rw [herm_ext_forward M b j])]
  have hsum : (∑ j : ZMod (2 * M),
        ((2 * M : ℕ) : ℂ)⁻¹
          * ZMod.dft (fun m : ZMod (2 * M) => ((b ⟨m.val, m.val_lt⟩ : ℝ) : ℂ)) j
          * ZMod.stdAddChar (j * ((n.val : ZMod (2 * M)))))
      = ZMod.dft.symm
          (ZMod.dft (fun m : ZMod (2 * M) => ((b ⟨m.val, m.val_lt⟩ : ℝ) : ℂ)))
          ((n.val : ZMod (2 * M))) := by
    rw [ZMod.invDFT_apply, smul_eq_mul, Finset.mul_sum]
    refine Finset.sum_congr rfl fun j _ => ?_
    rw [smul_eq_mul]
    push_cast
    ring
  rw [hsum, LinearEquiv.symm_apply_apply, Complex.ofReal_re]
  congr 1
  exact Fin.ext (ZMod.val_cast_of_lt n.isLt)

/-- C3: round-trip of the spec-modelled real FFT pair: for every real 960-sample
buffer `b`, inverse_transform (forward_transform b) recovers `b` exactly -- the
1/960 normalisation applied by the forward transform to all 481 stored bins is
undone by the unscaled inverse over the Hermitian-completed spectrum (exact
rationals replaced by reals here; the 1e-5 tolerance of the claim is met with
equality). -/
theorem c3_fft_round_trip (b : Fin 960 → ℝ) (n : Fin 960) :
    inverse_transform_model (forward_transform_model b) n = b n :=
  fft_round_trip_gen 480 b n
